import Mathlib

/-
Verification of the catalog extraction pipeline (scripts/extract-catalog-pdf.py).

Python strings are modeled as lists of characters (Str).  Regular expressions are
hand-compiled into executable recognizers that follow the backtracking semantics of
the Python re module on the concrete patterns of the script.  Floating point prices
are modeled as exact canonical decimals (the script only constructs, stores and
compares them, never computes with them).  Geometric coordinates are modeled as
integers: the script only compares them.  Warnings are modeled as tagged values
carrying the data interpolated into the source message strings.
-/

namespace CatalogExtract

/-- Python strings modeled as lists of characters. -/
abbrev Str := List Char

/-- A Lean string literal seen as the character-list model of a Python string. -/
def S (s : String) : Str := s.data

/-- ASCII whitespace: the characters matched by the regex class backslash-s and by
str.strip with no arguments, on the ASCII text this pipeline handles. -/
def isSpaceCh (c : Char) : Bool :=
  c == ' ' || c == '\t' || c == '\n' || c == '\r' || c == '\x0b' || c == '\x0c'

/-- Split a string at every character satisfying p, keeping empty pieces, like
Python str.split with a one-character separator generalized to a predicate. -/
def splitP (p : Char → Bool) : Str → List Str
  | [] => [[]]
  | c :: rest =>
    match splitP p rest with
    | [] => [[]]
    | h :: t => if p c then [] :: h :: t else (c :: h) :: t

/-- clean_spaces: collapse every whitespace run to one space and trim both ends
(re.sub of a whitespace run by one space, then str.strip). -/
def clean_spaces (s : Str) : Str :=
  List.intercalate [' '] ((splitP isSpaceCh s).filter (fun w => !w.isEmpty))

/-- str.strip(chars): remove the given characters from both ends. -/
def stripEdges (cs : List Char) (s : Str) : Str :=
  ((s.dropWhile (cs.contains ·)).reverse.dropWhile (cs.contains ·)).reverse

/-- str.lower on ASCII text. -/
def lowerStr (s : Str) : Str := s.map Char.toLower

/-- Exact decimal number num / 10 ^ exp in canonical form (no trailing fractional
zero).  Models the value of the Python float built from a captured decimal literal;
two captured literals denote the same float value exactly when their canonical
forms coincide. -/
structure Dec where
  num : Nat
  exp : Nat
deriving DecidableEq

/-- Canonicalize num / 10 ^ exp by removing trailing fractional zeros. -/
def canonDec : Nat → Nat → Dec
  | n, 0 => ⟨n, 0⟩
  | n, e + 1 => if n % 10 == 0 then canonDec (n / 10) e else ⟨n, e + 1⟩

/-- Numeric value of a big-endian ASCII digit string. -/
def natOfDigits (ds : Str) : Nat :=
  ds.foldl (fun acc c => acc * 10 + (c.toNat - '0'.toNat)) 0

/-- Model of the float conversion applied to a captured price string: one or more
leading digits, optionally a dot followed by further digits.  Any other shape
returns none, modelling the ValueError branch of the script. -/
def floatOfStr (s : Str) : Option Dec :=
  let ip := s.takeWhile (·.isDigit)
  if ip.isEmpty then none
  else
    match s.drop ip.length with
    | [] => some (canonDec (natOfDigits ip) 0)
    | '.' :: fr =>
      if fr.all (·.isDigit) then
        some (canonDec (natOfDigits ip * 10 ^ fr.length + natOfDigits fr) fr.length)
      else none
    | _ => none

/-- The two text columns of a page ("left" and "right" in the script). -/
inductive Column
  | left
  | right
deriving DecidableEq

/-- Page-scoped warnings, as tagged values carrying the data interpolated into the
message strings of the script. -/
inductive Warning
  | noBlocks (page : Nat) (column : Column)
  | invalidPrice (page : Nat) (column : Column) (raw : Str)
  | missingImage (page : Nat) (name : Str)
deriving DecidableEq

/-- Whether a warning is the "precio invalido" warning of parse_products_from_text. -/
def Warning.isInvalidPrice : Warning → Bool
  | Warning.invalidPrice _ _ _ => true
  | _ => false

/- ### PRODUCT_PATTERN: the size+price anchor regex -/

/-- The character class of the size capture groups of PRODUCT_PATTERN:
letters, digits, comma, whitespace, slash, dot and hyphen. -/
def isSizeClassCh (c : Char) : Bool :=
  c.isAlpha || c.isDigit || c == ',' || isSpaceCh c || c == '/' || c == '.' || c == '-'

/-- One match of PRODUCT_PATTERN (either alternative): consumed length and the
captured size expression and price literal. -/
structure MatchRes where
  len : Nat
  sizes : Str
  price : Str
deriving DecidableEq

/-- Greedy price capture candidates for the group of one or more digits followed by
an optional dot and exactly two digits: the preferred (longest) candidate first,
each with the remaining input.  Empty when no leading digit is present. -/
def priceCandidates (s : Str) : List (Str × Str) :=
  let ip := s.takeWhile (·.isDigit)
  if ip.isEmpty then []
  else
    match s.drop ip.length with
    | '.' :: a :: b :: rest =>
      if a.isDigit && b.isDigit then
        [(ip ++ ['.', a, b], rest), (ip, '.' :: a :: b :: rest)]
      else [(ip, '.' :: a :: b :: rest)]
    | r => [(ip, r)]

/-- The price capture when nothing of the pattern follows it (branch A): the greedy
candidate. -/
def capturePrice (s : Str) : Option (Str × Str) := (priceCandidates s).head?

/-- The size capture of branch A.  The class gap between the Tallas: label and the
dollar sign is matched as greedy whitespace, then the lazy size group, then greedy
whitespace; this captures the gap stripped of whitespace at both ends, except that a
pure-whitespace gap makes the lazy group backtrack onto the last gap character. -/
def sizesCapture (gap : Str) : Str :=
  let t := ((gap.dropWhile isSpaceCh).reverse.dropWhile isSpaceCh).reverse
  if t.isEmpty then gap.drop (gap.length - 1) else t

/-- Branch A of PRODUCT_PATTERN: the literal Tallas:, a size expression, then a
dollar sign and a price.  The size class cannot contain the dollar sign, so the
match succeeds exactly when the maximal class run after the label is non-empty and
ends at a dollar sign followed by a digit. -/
def tryBranchA (s : Str) : Option MatchRes :=
  if (S "Tallas:").isPrefixOf s then
    let rest := s.drop 7
    let gap := rest.takeWhile isSizeClassCh
    if gap.isEmpty then none
    else
      match rest.drop gap.length with
      | '$' :: afterDollar =>
        match capturePrice afterDollar with
        | some (price, remaining) =>
          some ⟨7 + gap.length + 1 + (afterDollar.length - remaining.length),
                sizesCapture gap, price⟩
        | none => none
      | _ => none
  else none

/-- The tail of branch B after its price: greedy whitespace, the literal Tallas:,
greedy whitespace and one lazily matched size character.  When the trailing
whitespace run is followed by no class character the lazy group backtracks onto the
last whitespace character of the run.  Returns consumed length and size capture. -/
def tryTailB (s : Str) : Option (Nat × Str) :=
  let k1 := (s.takeWhile isSpaceCh).length
  let r := s.drop k1
  if (S "Tallas:").isPrefixOf r then
    let u := r.drop 7
    let k2 := (u.takeWhile isSpaceCh).length
    match u.drop k2 with
    | c :: _ =>
      if isSizeClassCh c then some (k1 + 7 + k2 + 1, [c])
      else if 1 ≤ k2 then some (k1 + 7 + k2, (u.take k2).drop (k2 - 1))
      else none
    | [] => if 1 ≤ k2 then some (k1 + 7 + k2, (u.take k2).drop (k2 - 1)) else none
  else none

/-- Branch B with a fixed price candidate. -/
def branchBWith (afterDollar : Str) (cand : Str × Str) : Option MatchRes :=
  match tryTailB cand.2 with
  | some (tl, sz) => some ⟨1 + (afterDollar.length - cand.2.length) + tl, sz, cand.1⟩
  | none => none

/-- Branch B of PRODUCT_PATTERN: a dollar sign, a price (backtracking from the
greedy capture when needed), the literal Tallas: and a one-character size. -/
def tryBranchB : Str → Option MatchRes
  | '$' :: afterDollar =>
    match (priceCandidates afterDollar).filterMap (branchBWith afterDollar) with
    | m :: _ => some m
    | [] => none
  | _ => none

/-- A match of PRODUCT_PATTERN at the start of the input: branch A is preferred, as
in the alternation of the pattern. -/
def tryMatch (s : Str) : Option MatchRes :=
  match tryBranchA s with
  | some m => some m
  | none => tryBranchB s

/-- finditer: leftmost non-overlapping matches of a matcher, with start offsets.
Fuel-driven; every real match consumes at least one character, so fuel equal to the
text length plus one suffices. -/
def scanWith (f : Str → Option MatchRes) : Nat → Str → Nat → List (Nat × MatchRes)
  | 0, _, _ => []
  | fuel + 1, s, pos =>
    match f s with
    | some m => (pos, m) :: scanWith f fuel (s.drop m.len) (pos + m.len)
    | none =>
      match s with
      | [] => []
      | _ :: tail => scanWith f fuel tail (pos + 1)

/-- All matches of PRODUCT_PATTERN in a text, with their start offsets. -/
def findMatches (t : Str) : List (Nat × MatchRes) := scanWith tryMatch (t.length + 1) t 0

/-- text[a:b] for 0 <= a <= b. -/
def sliceStr (t : Str) (a b : Nat) : Str := (t.drop a).take (b - a)

/- ### parse_sizes -/

/-- A regex word character (class backslash-w): alphanumeric or underscore. -/
def isWordCh (c : Char) : Bool := c.isAlphanum || c == '_'

/-- A word boundary holds after a token when the input is exhausted or continues
with a non-word character. -/
def boundaryAfter : Str → Bool
  | [] => true
  | c :: _ => !isWordCh c

/-- The literal alternatives of the size vocabulary, in the order of the pattern. -/
def sizeLits : List Str :=
  [S "XS", S "S", S "M", S "L", S "XL", S "XXL", S "XXXL", S "UNICA", S "U"]

/-- Match one literal alternative at the start of the input, requiring the trailing
word boundary. -/
def litMatch (lit : Str) (s : Str) : Option (Str × Str) :=
  if lit.isPrefixOf s && boundaryAfter (s.drop lit.length) then
    some (lit, s.drop lit.length)
  else none

/-- First literal alternative that matches. -/
def firstLit : List Str → Str → Option (Str × Str)
  | [], _ => none
  | lit :: ls, s =>
    match litMatch lit s with
    | some r => some r
    | none => firstLit ls s

/-- One alternative of the size vocabulary at the current position: a two-digit
number is tried first, then the letter codes, each with its trailing boundary. -/
def sizeAltAt (s : Str) : Option (Str × Str) :=
  match s with
  | a :: b :: rest =>
    if a.isDigit && b.isDigit && boundaryAfter rest then some ([a, b], rest)
    else firstLit sizeLits s
  | _ => firstLit sizeLits s

/-- re.findall for the size vocabulary with leading word boundary: prevWord records
whether the previous character was a word character (the leading boundary fails when
it was).  After a match scanning resumes right after the token, whose last character
is a word character. -/
def sizeTokensAux : Nat → Str → Bool → List Str
  | 0, _, _ => []
  | fuel + 1, s, prevWord =>
    if prevWord then
      match s with
      | [] => []
      | c :: tail => sizeTokensAux fuel tail (isWordCh c)
    else
      match sizeAltAt s with
      | some (tok, rest) => tok :: sizeTokensAux fuel rest true
      | none =>
        match s with
        | [] => []
        | c :: tail => sizeTokensAux fuel tail (isWordCh c)

/-- All size-vocabulary tokens of a string. -/
def findSizeTokens (s : Str) : List Str := sizeTokensAux (s.length + 1) s false

/-- str.replace of the three-character separator " Y " by a comma, scanning left to
right without overlap. -/
def replaceYAux : Nat → Str → Str
  | 0, s => s
  | fuel + 1, s =>
    if (S " Y ").isPrefixOf s then ',' :: replaceYAux fuel (s.drop 3)
    else
      match s with
      | [] => []
      | c :: tail => c :: replaceYAux fuel tail

/-- The cleaned size expression parse_sizes scans: whitespace collapsed, uppercased,
the " Y " conjunction replaced by a comma. -/
def cleanedSizes (raw : Str) : Str :=
  let c := (clean_spaces raw).map Char.toUpper
  replaceYAux (c.length + 1) c

/-- parse_sizes: extract the size vocabulary tokens of the cleaned expression,
normalize U to UNICA, and fall back to the single UNICA sentinel when nothing
matches. -/
def parse_sizes (raw : Str) : List Str :=
  let tokens := findSizeTokens (cleanedSizes raw)
  if tokens.isEmpty then [S "UNICA"]
  else tokens.map fun t => if t == S "U" then S "UNICA" else t

/- ### extract_brand_and_name -/

/-- The brand candidates of the script, in scan order. -/
def BRAND_CANDIDATES : List Str :=
  [S "Zara", S "Mango", S "Pull & Bear", S "Stradivarius", S "Bershka", S "H&M",
   S "HM", S "Sfera", S "Forever 21", S "Lefties", S "Shein", S "Massimo Dutti"]

/-- The cleaned chunk text extract_brand_and_name works on: whitespace collapsed,
one leading run of digits, commas and whitespace removed, then dot, comma, hyphen
and space stripped from both ends. -/
def nameCore (raw : Str) : Str :=
  let text := clean_spaces raw
  let text := text.dropWhile fun c => c.isDigit || c == ',' || isSpaceCh c
  stripEdges [' ', '.', ',', '-'] (clean_spaces text)

/-- The brand scan of extract_brand_and_name: the first candidate matching as a
lowercase prefix (followed by a space) or suffix (preceded by a space) is split off;
otherwise the brand is the placeholder "Generica" and the name the whole text. -/
def brandScan : List Str → Str → Str × Str
  | [], text => (S "Generica", text)
  | cand :: rest, text =>
    if (lowerStr cand ++ [' ']).isPrefixOf (lowerStr text) then
      let name := clean_spaces (text.drop cand.length)
      (cand, if name.isEmpty then S "Producto sin nombre" else name)
    else if ([' '] ++ lowerStr cand).isSuffixOf (lowerStr text) then
      let name := clean_spaces (text.take (text.length - cand.length))
      (cand, if name.isEmpty then S "Producto sin nombre" else name)
    else brandScan rest text

/-- extract_brand_and_name of the script. -/
def extract_brand_and_name (raw : Str) : Str × Str :=
  let text := nameCore raw
  if text.isEmpty then (S "Generica", S "Producto sin nombre")
  else brandScan BRAND_CANDIDATES text

/- ### parse_products_from_text (the segmenter of the script) -/

/-- One parsed product chunk, with the fields of the ProductBlock dataclass. -/
structure ProductBlock where
  page : Nat
  column : Column
  order_in_column : Nat
  name : Str
  brand : Str
  category : Str
  sizes : List Str
  price : Dec
  image_filename : Str
  confidence : Str
  source_text : Str
deriving DecidableEq

/-- The match loop of parse_products_from_text: prevEnd is the end of the previous
match, order the running per-column counter, incremented only when a block is
emitted. -/
def parseGo (text : Str) (page : Nat) (col : Column) (category : Str) :
    List (Nat × MatchRes) → Nat → Nat → List ProductBlock × List Warning
  | [], _, _ => ([], [])
  | (start, m) :: ms, prevEnd, order =>
    let chunk := clean_spaces (sliceStr text prevEnd start)
    let nextEnd := start + m.len
    if chunk.isEmpty then parseGo text page col category ms nextEnd order
    else
      let sizes := parse_sizes m.sizes
      match floatOfStr m.price with
      | none =>
        let r := parseGo text page col category ms nextEnd order
        (r.1, Warning.invalidPrice page col m.price :: r.2)
      | some price =>
        let bn := extract_brand_and_name chunk
        let confidence := if bn.1 == S "Generica" then S "low" else S "medium"
        let r := parseGo text page col category ms nextEnd (order + 1)
        ({ page := page, column := col, order_in_column := order + 1, name := bn.2,
           brand := bn.1, category := category, sizes := sizes, price := price,
           image_filename := [], confidence := confidence, source_text := chunk } :: r.1,
          r.2)

/-- parse_products_from_text: segment a column text at PRODUCT_PATTERN anchor
matches into product blocks; when no anchor matches, record one warning and return
no blocks.  Returns the blocks and the warnings appended to page_warnings. -/
def parse_products_from_text (text : Str) (page : Nat) (col : Column) (category : Str) :
    List ProductBlock × List Warning :=
  if text.isEmpty then ([], [])
  else
    match findMatches text with
    | [] => ([], [Warning.noBlocks page col])
    | ms => parseGo text page col category ms 0 0

/- ### Category detection -/

/-- A positioned word of a page, with the fields the script reads. -/
structure Word where
  text : Str
  upright : Bool
  height : Int
deriving DecidableEq

/-- looks_like_category_marker: a rotated word of at least four characters made only
of uppercase letters and hyphens. -/
def looks_like_category_marker (w : Word) : Bool :=
  !w.upright && decide (4 ≤ w.text.length) && w.text.all fun c => c.isUpper || c == '-'

/-- str.split on hyphens, keeping empty pieces. -/
def splitHyphens : Str → List Str
  | [] => [[]]
  | c :: rest =>
    if c == '-' then [] :: splitHyphens rest
    else
      match splitHyphens rest with
      | [] => [[]]
      | h :: t => (c :: h) :: t

/-- str.title on the letters-and-spaces strings this pipeline produces: a letter
following a letter is lowercased, any other letter is uppercased. -/
def titleAux : Bool → Str → Str
  | _, [] => []
  | prevAlpha, c :: rest =>
    if c.isAlpha then (if prevAlpha then c.toLower else c.toUpper) :: titleAux true rest
    else c :: titleAux false rest

/-- str.title. -/
def titleStr (s : Str) : Str := titleAux false s

/-- normalize_category_token: keep letters and hyphens, uppercase, split on hyphens,
reverse each non-empty part, join with spaces, title-case; empty results give the
default label. -/
def normalize_category_token (raw : Str) : Str :=
  let r := clean_spaces raw
  let r := (r.filter fun c => c.isAlpha || c == '-').map Char.toUpper
  if r.isEmpty then S "Sin categoria"
  else
    let reversedParts := ((splitHyphens r).filter (fun p => !p.isEmpty)).map List.reverse
    if reversedParts.isEmpty then S "Sin categoria"
    else titleStr (List.intercalate [' '] reversedParts)

/-- The descending-height order used to pick the most prominent marker (list.sort
with reverse=True on the glyph height). -/
def heightGe (a b : Word) : Prop := b.height ≤ a.height

instance : DecidableRel heightGe := fun a b => inferInstanceAs (Decidable (b.height ≤ a.height))

/-- page_category: filter marker candidates, sort by descending glyph height and
normalize the first, or return the default label when no candidate exists. -/
def page_category (words : List Word) : Str :=
  let vertical := words.filter looks_like_category_marker
  match List.insertionSort heightGe vertical with
  | [] => S "Sin categoria"
  | w :: _ => normalize_category_token w.text

/- ### Image extraction and numbering -/

/-- A raw page image with the fields the script reads; decodes records whether
save_pdf_image succeeds on it (image decoding is an external collaborator). -/
structure PdfImage where
  top : Int
  x0 : Int
  decodes : Bool
deriving DecidableEq

/-- An extracted image slot. -/
structure ImageSlot where
  page : Nat
  column : Column
  order_in_column : Nat
  filename : Str
  top : Int
  x0 : Int
deriving DecidableEq

/-- Little-endian decimal digits with explicit fuel; fuel n suffices for n. -/
def decAux : Nat → Nat → List Nat
  | 0, n => [n % 10]
  | fuel + 1, n => if n < 10 then [n] else n % 10 :: decAux fuel (n / 10)

/-- Big-endian decimal digit characters of a natural number. -/
def decDigits (n : Nat) : Str := (decAux n n).reverse.map Nat.digitChar

/-- Zero-padded decimal rendering, as in format specifiers like 04d. -/
def padZeros (width n : Nat) : Str :=
  List.replicate (width - (decDigits n).length) '0' ++ decDigits n

/-- Value of a little-endian decimal digit list (the inverse of decAux). -/
def digitsVal : List Nat → Nat
  | [] => 0
  | d :: ds => d + 10 * digitsVal ds

/-- The filename given to the image at 1-based position idx of the sorted image list
of a page: IMG-P<page:03d>-I<idx:02d>.png. -/
def mkImageFilename (page idx : Nat) : Str :=
  S "IMG-P" ++ padZeros 3 page ++ S "-I" ++ padZeros 2 idx ++ S ".png"

/-- The vertical-then-horizontal order used to sort the images of a page. -/
def imgLe (a b : PdfImage) : Prop := a.top < b.top ∨ (a.top = b.top ∧ a.x0 ≤ b.x0)

instance : DecidableRel imgLe := fun a b =>
  inferInstanceAs (Decidable (a.top < b.top ∨ (a.top = b.top ∧ a.x0 ≤ b.x0)))

/-- The extraction loop: enumerate the sorted images from 1, skip decode failures,
and bucket survivors into columns by the horizontal midpoint (x0 < width / 2, stated
integrally as 2 * x0 < width); order_in_column is filled in afterwards. -/
def slotsBase (page : Nat) (width : Int) : Nat → List PdfImage → List ImageSlot
  | _, [] => []
  | idx, img :: rest =>
    if img.decodes then
      { page := page,
        column := if 2 * img.x0 < width then Column.left else Column.right,
        order_in_column := 0,
        filename := mkImageFilename page idx,
        top := img.top, x0 := img.x0 } :: slotsBase page width (idx + 1) rest
    else slotsBase page width (idx + 1) rest

/-- Assign 1-based per-column positions.  The script re-sorts each column by
(top, x0) and numbers by sort position; the slots come from the globally (top, x0)
sorted image list, so that stable re-sort is the identity and the assigned number is
the position within the column in discovery order. -/
def numberByColumn : Nat → Nat → List ImageSlot → List ImageSlot
  | _, _, [] => []
  | nl, nr, s :: rest =>
    match s.column with
    | Column.left => { s with order_in_column := nl + 1 } :: numberByColumn (nl + 1) nr rest
    | Column.right => { s with order_in_column := nr + 1 } :: numberByColumn nl (nr + 1) rest

/-- extract_images_from_page: sort the images by (top, x0), drop decode failures,
name and bucket the survivors, and number each column 1..N. -/
def extract_images_from_page (page : Nat) (width : Int) (images : List PdfImage) :
    List ImageSlot :=
  numberByColumn 0 0 (slotsBase page width 1 (List.insertionSort imgLe images))

/- ### Image assignment and the missing-image pass -/

/-- The filename of the slot with the given (column, order) key.  The script builds
a dict keyed by (column, order) where a later slot overwrites an earlier one with
the same key, hence the search over the reversed list; missing keys give the empty
filename. -/
def imageForKey (slots : List ImageSlot) (c : Column) (k : Nat) : Str :=
  match slots.reverse.find? (fun s => s.column == c && s.order_in_column == k) with
  | some s => s.filename
  | none => []

/-- assign_images_to_products: a pure index join on (column, order_in_column).
The review rows it also emits are direct serialization and are omitted. -/
def assign_images_to_products (products : List ProductBlock) (slots : List ImageSlot) :
    List ProductBlock :=
  products.map fun p =>
    { p with image_filename := imageForKey slots p.column p.order_in_column }

/-- The missing-image pass of run_extraction: a product with an empty image
filename is forced to low confidence and one page warning is recorded for it. -/
def markMissingImages (page : Nat) : List ProductBlock → List ProductBlock × List Warning
  | [] => ([], [])
  | p :: rest =>
    let r := markMissingImages page rest
    if p.image_filename.isEmpty then
      ({ p with confidence := S "low" } :: r.1, Warning.missingImage page p.name :: r.2)
    else (p :: r.1, r.2)

/- ### SKU generation and staging rows -/

/-- strip_accents: NFD normalization with combining-mark removal.  On the ASCII
category and brand strings this pipeline produces it is the identity, which is how
it is modeled. -/
def stripAccents (s : Str) : Str := s

/-- (compact[:4] or "GENR").ljust(4, "X") on an uppercase alphanumeric string. -/
def code4 (compact : Str) : Str :=
  if compact.isEmpty then S "GENR"
  else compact.take 4 ++ List.replicate (4 - (compact.take 4).length) 'X'

/-- category_code: strip accents, uppercase, keep alphanumerics, take four
characters padded with X. -/
def category_code (category : Str) : Str :=
  code4 (((stripAccents category).map Char.toUpper).filter fun c => c.isUpper || c.isDigit)

/-- brand_code: same normalization as category_code. -/
def brand_code (brand : Str) : Str :=
  code4 (((stripAccents brand).map Char.toUpper).filter fun c => c.isUpper || c.isDigit)

/-- make_sku: the fixed prefix, category code, brand code, zero-padded four-digit
counter and size, joined by hyphens. -/
def make_sku (category brand : Str) (counter : Nat) (size : Str) : Str :=
  S "AMN-" ++ category_code category ++ S "-" ++ brand_code brand ++ S "-" ++
    padZeros 4 counter ++ S "-" ++ size

/-- One staging CSV row.  The counter field is the chunk counter the sku was built
from, kept to state the uniqueness claim; color, cost and initial_stock are constant
blanks and the price is written formatted, all direct serialization. -/
structure StagingRow where
  sku : Str
  name : Str
  category : Str
  size : Str
  price : Dec
  image_filename : Str
  brand : Str
  source_page : Nat
  confidence : Str
  counter : Nat
deriving DecidableEq

/-- The rows of one product: one per size, sharing the chunk counter. -/
def rowsFor (p : ProductBlock) (counter : Nat) : List StagingRow :=
  p.sizes.map fun size =>
    { sku := make_sku p.category p.brand counter size, name := p.name,
      category := p.category, size := size, price := p.price,
      image_filename := p.image_filename, brand := p.brand, source_page := p.page,
      confidence := p.confidence, counter := counter }

/-- The row loop of write_staging_csv: the product counter is incremented once per
product, before its size rows are written. -/
def stagingRowsAux : Nat → List ProductBlock → List StagingRow
  | _, [] => []
  | cnt, p :: rest => rowsFor p (cnt + 1) ++ stagingRowsAux (cnt + 1) rest

/-- The rows written by write_staging_csv (file output omitted). -/
def write_staging_csv (products : List ProductBlock) : List StagingRow :=
  stagingRowsAux 0 products

/- ### The permissive pipeline variant, modelled from the spec

The specification describes two pipeline variants (strict and permissive); the
script under src implements the strict one.  The permissive segmenter with its
bare-price fallback, the per-chunk reference resolver and the spec name-cleaning
rule belong to repository code outside src and are modelled here from the words of
the specification. -/

/-- Modelled from the spec: the bare-price anchor pattern of the permissive
fallback pass, a dollar sign followed by a price (digits with an optional dot and
exactly two digits); no size group. -/
def tryGeneric : Str → Option MatchRes
  | '$' :: afterDollar =>
    match capturePrice afterDollar with
    | some (price, remaining) =>
      some ⟨1 + (afterDollar.length - remaining.length), [], price⟩
    | none => none
  | _ => none

/-- All matches of the bare-price anchor pattern, with start offsets. -/
def findGenericMatches (t : Str) : List (Nat × MatchRes) :=
  scanWith tryGeneric (t.length + 1) t 0

/-- The parenthesized groups of a chunk, in order of appearance; an unclosed
parenthesis yields no further group. -/
def parenGroupsAux : Nat → Str → List Str
  | 0, _ => []
  | fuel + 1, s =>
    match s with
    | [] => []
    | '(' :: rest =>
      let inside := rest.takeWhile (· != ')')
      match rest.drop inside.length with
      | ')' :: after => inside :: parenGroupsAux fuel after
      | _ => []
    | _ :: tail => parenGroupsAux fuel tail

/-- All parenthesized groups of a chunk. -/
def parenGroups (s : Str) : List Str := parenGroupsAux (s.length + 1) s

/-- Modelled from the spec: strategy (a) of the ReferenceResolver — the last
parenthesized group, stripped of non-alphanumeric characters and uppercased; empty
when the chunk has no parenthesized group. -/
def normLastParen (chunk : Str) : Str :=
  match (parenGroups chunk).getLast? with
  | some g => (g.filter Char.isAlphanum).map Char.toUpper
  | none => []

/-- The maximal digit runs of a chunk, in order of appearance. -/
def digitRunsAux : Nat → Str → List Str
  | 0, _ => []
  | fuel + 1, s =>
    match s with
    | [] => []
    | c :: tail =>
      if c.isDigit then
        let run := s.takeWhile (·.isDigit)
        run :: digitRunsAux fuel (s.drop run.length)
      else digitRunsAux fuel tail

/-- Modelled from the spec: strategy (b) of the ReferenceResolver — the last run of
six or more consecutive digits, uppercased; empty when no such run exists. -/
def lastDigitRun6 (chunk : Str) : Str :=
  match ((digitRunsAux (chunk.length + 1) chunk).filter fun r => 6 ≤ r.length).getLast? with
  | some r => r.map Char.toUpper
  | none => []

/-- Modelled from the spec: the per-chunk ReferenceResolver — strategy (a) when it
yields a non-empty value, else strategy (b), else the empty reference. -/
def refFromChunk (chunk : Str) : Str :=
  let p := normLastParen chunk
  if !p.isEmpty then p else lastDigitRun6 chunk

/-- Remove every parenthesized span, parentheses included; an unclosed parenthesis
is kept verbatim. -/
def removeParensAux : Nat → Str → Str
  | 0, s => s
  | fuel + 1, s =>
    match s with
    | [] => []
    | '(' :: rest =>
      let inside := rest.takeWhile (· != ')')
      match rest.drop inside.length with
      | ')' :: after => removeParensAux fuel after
      | _ => s
    | c :: tail => c :: removeParensAux fuel tail

/-- Remove every parenthesized span of a chunk. -/
def removeParens (s : Str) : Str := removeParensAux (s.length + 1) s

/-- A currency or numeric token: made only of digits, dollar signs, dots and
commas, and containing a digit or a dollar sign. -/
def isNumericTok (w : Str) : Bool :=
  (w.all fun c => c.isDigit || c == '$' || c == '.' || c == ',') &&
    (w.any fun c => c.isDigit || c == '$')

/-- Cut the input at the first occurrence of the pattern, dropping the pattern and
everything after it. -/
def cutAtAux (pat : Str) : Nat → Str → Str
  | 0, s => s
  | fuel + 1, s =>
    if pat.isPrefixOf s then []
    else
      match s with
      | [] => []
      | c :: tail => c :: cutAtAux pat fuel tail

/-- Modelled from the spec: the name extraction rule of the specification — strip
parenthesized text, strip currency and numeric tokens, strip a trailing Tallas:
remainder, collapse whitespace, strip edge punctuation; an empty result becomes the
placeholder name. -/
def specNameClean (raw : Str) : Str :=
  let t := removeParens raw
  let t := List.intercalate [' ']
    (((splitP isSpaceCh t).filter fun w => !w.isEmpty).filter fun w => !isNumericTok w)
  let t := cutAtAux (S "Tallas:") (t.length + 1) t
  let t := stripEdges [' ', '.', ',', '-', ':', ';'] (clean_spaces t)
  if t.isEmpty then S "Producto sin nombre" else t

/-- One output row of the permissive pipeline variant, with the raw fields the
specification lists for it. -/
structure PermRow where
  page : Nat
  column : Column
  order_in_column : Nat
  name : Str
  category : Str
  sizes : List Str
  price : Dec
  reference : Str
  confidence : Str
  parse_mode : Str
  source_text : Str
deriving DecidableEq

/-- Modelled from the spec: the primary (size+price anchored) pass of the
permissive segmenter; chunks are the cleaned text between consecutive anchors,
confidence starts at medium exactly when an in-chunk reference was found, and the
parse mode is with_sizes. -/
def permPrimaryGo (text : Str) (page : Nat) (col : Column) (category : Str) :
    List (Nat × MatchRes) → Nat → Nat → List PermRow
  | [], _, _ => []
  | (start, m) :: ms, prevEnd, order =>
    let chunk := clean_spaces (sliceStr text prevEnd start)
    let nextEnd := start + m.len
    if chunk.isEmpty then permPrimaryGo text page col category ms nextEnd order
    else
      let reference := refFromChunk chunk
      { page := page, column := col, order_in_column := order + 1,
        name := specNameClean chunk, category := category,
        sizes := parse_sizes m.sizes, price := (floatOfStr m.price).getD ⟨0, 0⟩,
        reference := reference,
        confidence := if reference.isEmpty then S "low" else S "medium",
        parse_mode := S "with_sizes", source_text := chunk } ::
        permPrimaryGo text page col category ms nextEnd (order + 1)

/-- Modelled from the spec: the fallback pass of the permissive segmenter.  The
bare-price anchors are the chunk boundaries; each chunk is the cleaned text between
one anchor and the next (the last anchor owns the trailing text) and carries the
price of its anchor; every non-empty chunk yields exactly one row with size forced
to UNICA, confidence fixed at low and parse mode generic_no_sizes. -/
def permFallbackGo (text : Str) (page : Nat) (col : Column) (category : Str) :
    List (Nat × MatchRes) → Nat → List PermRow
  | [], _ => []
  | (start, m) :: ms, order =>
    let chunkEnd := match ms with
      | [] => text.length
      | (s2, _) :: _ => s2
    let chunk := clean_spaces (sliceStr text (start + m.len) chunkEnd)
    if chunk.isEmpty then permFallbackGo text page col category ms order
    else
      { page := page, column := col, order_in_column := order + 1,
        name := specNameClean chunk, category := category, sizes := [S "UNICA"],
        price := (floatOfStr m.price).getD ⟨0, 0⟩, reference := refFromChunk chunk,
        confidence := S "low", parse_mode := S "generic_no_sizes",
        source_text := chunk } :: permFallbackGo text page col category ms (order + 1)

/-- Modelled from the spec: the permissive-mode ProductSegmenter — the anchored
pattern is tried first; when it yields zero matches a fallback pass applies the
bare-price anchor pattern with the same chunk-boundary logic; a column where even
the fallback finds nothing records one warning. -/
def parse_products_permissive (text : Str) (page : Nat) (col : Column) (category : Str) :
    List PermRow × List Warning :=
  if text.isEmpty then ([], [])
  else
    match findMatches text with
    | [] =>
      match findGenericMatches text with
      | [] => ([], [Warning.noBlocks page col])
      | gs => (permFallbackGo text page col category gs 0, [])
    | ms => (permPrimaryGo text page col category ms 0 0, [])

/-- The chunk/price pairs of the fallback pass: for each bare-price anchor, the
cleaned text between its end and the next anchor (the last anchor owns the trailing
text), paired with its captured price. -/
def genericChunks (text : Str) : List (Nat × MatchRes) → List (Str × Str)
  | [] => []
  | (start, m) :: ms =>
    let chunkEnd := match ms with
      | [] => text.length
      | (s2, _) :: _ => s2
    (clean_spaces (sliceStr text (start + m.len) chunkEnd), m.price) :: genericChunks text ms

/-- A default product block, used only to state witnesses via List.headD. -/
def defBlock : ProductBlock :=
  { page := 0, column := Column.left, order_in_column := 0, name := [], brand := [],
    category := [], sizes := [], price := ⟨0, 0⟩, image_filename := [],
    confidence := [], source_text := [] }

/-- A default staging row, used only to state witnesses via List.getD. -/
def defRow : StagingRow :=
  { sku := [], name := [], category := [], size := [], price := ⟨0, 0⟩,
    image_filename := [], brand := [], source_page := 0, confidence := [], counter := 0 }

/-- A concrete two-product page used to exercise the image join: two left-column
chunks but only one decodable image. -/
def c5Products : List ProductBlock :=
  [{ page := 1, column := Column.left, order_in_column := 1, name := S "Blusa",
     brand := S "Zara", category := S "X", sizes := [S "M"], price := ⟨10, 0⟩,
     image_filename := [], confidence := S "medium", source_text := S "Zara Blusa" },
   { page := 1, column := Column.left, order_in_column := 2, name := S "Falda",
     brand := S "Zara", category := S "X", sizes := [S "M"], price := ⟨12, 0⟩,
     image_filename := [], confidence := S "medium", source_text := S "Zara Falda" }]

/-- The single decodable image of that concrete page. -/
def c5Images : List PdfImage := [{ top := 10, x0 := 10, decodes := true }]

/-- The image phase of run_extraction for one page: join the extracted image slots
onto the parsed products, then demote and warn about products left without an
image. -/
def runPageImagePhase (page : Nat) (width : Int) (images : List PdfImage)
    (products : List ProductBlock) : List ProductBlock × List Warning :=
  markMissingImages page
    (assign_images_to_products products (extract_images_from_page page width images))

/-- The shape claimed for every captured price: one or more digits, optionally
followed by a period and exactly two digits. -/
def pricePatternShape (s : Str) : Bool :=
  let ip := s.takeWhile (·.isDigit)
  !ip.isEmpty &&
    (match s.drop ip.length with
     | [] => true
     | '.' :: a :: b :: [] => a.isDigit && b.isDigit
     | _ => false)

/- ## Theorems -/

section Theorems

/-- The normalization map of parse_sizes never outputs the bare token U. -/
theorem u_notMem_mapNorm (l : List Str) :
    S "U" ∉ l.map fun t => if t == S "U" then S "UNICA" else t := by
  intro hmem
  rcases List.mem_map.mp hmem with ⟨t, _, ht⟩
  by_cases hU : t = S "U"
  · rw [if_pos (by simp [hU])] at ht
    exact absurd ht (by decide)
  · rw [if_neg (by simp [hU])] at ht
    exact hU ht

/-- C8: for every size-expression string the tokenizer result is non-empty; when
the cleaned expression yields no vocabulary token the result is exactly the UNICA
singleton; and the bare token U never survives normalization. -/
theorem c8_size_tokenizer (raw : Str) :
    parse_sizes raw ≠ [] ∧
    (findSizeTokens (cleanedSizes raw) = [] → parse_sizes raw = [S "UNICA"]) ∧
    S "U" ∉ parse_sizes raw := by
  rcases hts : findSizeTokens (cleanedSizes raw) with _ | ⟨t, ts⟩
  · have hps : parse_sizes raw = [S "UNICA"] := by
      simp [parse_sizes, hts]
    exact ⟨by simp [hps], fun _ => hps, by rw [hps]; decide⟩
  · have hps : parse_sizes raw =
        (t :: ts).map fun x => if x == S "U" then S "UNICA" else x := by
      simp [parse_sizes, hts]
    refine ⟨by simp [hps], fun h => ?_, by rw [hps]; exact u_notMem_mapNorm (t :: ts)⟩
    exact absurd h (List.cons_ne_nil t ts)

/-- C8 witness: a concrete unparseable size expression. -/
theorem c8_size_tokenizer_witness : parse_sizes (S "???") = [S "UNICA"] :=
  (c8_size_tokenizer (S "???")).2.1 (by decide)

instance : IsTotal Word heightGe := ⟨fun a b => le_total b.height a.height⟩

instance : IsTrans Word heightGe := ⟨fun _ _ _ hab hbc => le_trans hbc hab⟩

/-- A page with no marker candidate gets the default category label. -/
theorem page_category_of_no_marker (words : List Word)
    (h : words.filter looks_like_category_marker = []) :
    page_category words = S "Sin categoria" := by
  simp [page_category, h, List.insertionSort]

/-- A page with marker candidates gets the normalization of a candidate of maximal
glyph height (the head of the descending stable sort). -/
theorem page_category_of_marker (words : List Word)
    (h : words.filter looks_like_category_marker ≠ []) :
    ∃ w ∈ words, looks_like_category_marker w = true ∧
      (∀ v ∈ words, looks_like_category_marker v = true → v.height ≤ w.height) ∧
      page_category words = normalize_category_token w.text := by
  rcases hs : List.insertionSort heightGe (words.filter looks_like_category_marker)
      with _ | ⟨w, rest⟩
  · have hlen := (List.perm_insertionSort heightGe
      (words.filter looks_like_category_marker)).length_eq
    rw [hs] at hlen
    exact absurd (List.length_eq_zero.mp hlen.symm) h
  · have hperm := List.perm_insertionSort heightGe (words.filter looks_like_category_marker)
    have hwv : w ∈ words.filter looks_like_category_marker := by
      rw [hs] at hperm
      exact hperm.subset (List.mem_cons_self w rest)
    have hsort := List.sorted_insertionSort heightGe (words.filter looks_like_category_marker)
    rw [hs] at hsort
    refine ⟨w, (List.mem_filter.mp hwv).1, (List.mem_filter.mp hwv).2, ?_, ?_⟩
    · intro v hvw hvm
      have hvvert : v ∈ words.filter looks_like_category_marker :=
        List.mem_filter.mpr ⟨hvw, hvm⟩
      have hv2 : v ∈ w :: rest := by
        rw [← hs]
        exact ((List.perm_insertionSort heightGe _).mem_iff).mpr hvvert
      rcases List.mem_cons.mp hv2 with h1 | h1
      · rw [h1]
      · exact (List.sorted_cons.mp hsort).1 v h1
    · simp only [page_category, hs]

/-- splitHyphens never returns the empty list. -/
theorem splitHyphens_ne_nil (l : Str) : splitHyphens l ≠ [] := by
  cases l with
  | nil => simp [splitHyphens]
  | cons c rest =>
    by_cases hc : (c == '-') = true
    · simp [splitHyphens, hc]
    · simp only [splitHyphens, hc]
      rcases h : splitHyphens rest with _ | ⟨hh, tt⟩ <;> simp

/-- Splitting an all-hyphen string on hyphens yields only empty parts. -/
theorem splitHyphens_all_empty (l : Str) (h : ∀ c ∈ l, c = '-') :
    ∀ p ∈ splitHyphens l, p = [] := by
  induction l with
  | nil =>
    intro p hp
    simpa [splitHyphens] using hp
  | cons c rest ih =>
    intro p hp
    have hc : (c == '-') = true := by simp [h c (List.mem_cons_self c rest)]
    rw [show splitHyphens (c :: rest) = [] :: splitHyphens rest from by
      simp [splitHyphens, hc]] at hp
    rcases List.mem_cons.mp hp with h1 | h1
    · exact h1
    · exact ih (fun x hx => h x (List.mem_cons_of_mem c hx)) p h1

/-- A marker whose letter-and-hyphen content consists of hyphens only (in
particular an empty one) normalizes to the default label. -/
theorem normalize_category_token_degenerate (raw : Str)
    (hall : ∀ c ∈ ((clean_spaces raw).filter fun c => c.isAlpha || c == '-').map
      Char.toUpper, c = '-') :
    normalize_category_token raw = S "Sin categoria" := by
  unfold normalize_category_token
  by_cases he : (((clean_spaces raw).filter fun c => c.isAlpha || c == '-').map
      Char.toUpper).isEmpty
  · simp [he]
  · have hfilter : ((splitHyphens (((clean_spaces raw).filter
        fun c => c.isAlpha || c == '-').map Char.toUpper)).filter
          fun p => !p.isEmpty) = [] := by
      rw [List.filter_eq_nil_iff]
      intro p hp
      simp [splitHyphens_all_empty _ hall p hp]
    simp [he, hfilter]

/-- C9: the page category is the normalization of a marker candidate of maximal
glyph height when one exists, and the default label otherwise; the rotated marker
TAPUR normalizes to Rupat (the hyphen-segment reversal and title-casing); and a
marker whose letter-and-hyphen content is hyphens only, in particular empty,
normalizes to the default label. -/
theorem c9_category_label :
    (∀ words : List Word, words.filter looks_like_category_marker = [] →
      page_category words = S "Sin categoria") ∧
    (∀ words : List Word, words.filter looks_like_category_marker ≠ [] →
      ∃ w ∈ words, looks_like_category_marker w = true ∧
        (∀ v ∈ words, looks_like_category_marker v = true → v.height ≤ w.height) ∧
        page_category words = normalize_category_token w.text) ∧
    normalize_category_token (S "TAPUR") = S "Rupat" ∧
    (∀ raw : Str,
      (∀ c ∈ ((clean_spaces raw).filter fun c => c.isAlpha || c == '-').map Char.toUpper,
        c = '-') →
      normalize_category_token raw = S "Sin categoria") :=
  ⟨page_category_of_no_marker, page_category_of_marker, by decide,
    normalize_category_token_degenerate⟩

/-- C9 witness: a concrete page whose tallest rotated marker wins, and a page with
no marker at all. -/
theorem c9_category_label_witness :
    page_category [] = S "Sin categoria" ∧
    normalize_category_token (S "---") = S "Sin categoria" := by
  constructor
  · exact c9_category_label.1 [] (by decide)
  · exact c9_category_label.2.2.2 (S "---") (by decide)

/-- A list whose members all satisfy p is its own takeWhile. -/
theorem takeWhile_of_all (p : Char → Bool) (l : Str) (h : ∀ c ∈ l, p c = true) :
    l.takeWhile p = l := by
  induction l with
  | nil => rfl
  | cons c t ih =>
    rw [List.takeWhile_cons, if_pos (h c (List.mem_cons_self c t))]
    rw [ih fun x hx => h x (List.mem_cons_of_mem c hx)]

/-- takeWhile stops exactly at the first failing character. -/
theorem takeWhile_append_stop (p : Char → Bool) (l : Str) (x : Char) (r : Str)
    (hl : ∀ c ∈ l, p c = true) (hx : p x = false) :
    (l ++ x :: r).takeWhile p = l := by
  induction l with
  | nil => simpa [List.takeWhile_cons] using hx
  | cons c t ih =>
    rw [List.cons_append, List.takeWhile_cons, if_pos (hl c (List.mem_cons_self c t))]
    rw [ih fun y hy => hl y (List.mem_cons_of_mem c hy)]

/-- A non-empty all-digit string satisfies the price shape and converts. -/
theorem ip_price_ok (ip : Str) (hne : ip ≠ []) (hdig : ∀ c ∈ ip, c.isDigit = true) :
    pricePatternShape ip = true ∧ (floatOfStr ip).isSome = true := by
  have htake : ip.takeWhile (·.isDigit) = ip := takeWhile_of_all _ ip hdig
  have hemp : ip.isEmpty = false := by
    cases ip with
    | nil => exact absurd rfl hne
    | cons c t => rfl
  constructor
  · simp only [pricePatternShape, htake, hemp, List.drop_length]
    rfl
  · simp only [floatOfStr, htake, hemp, List.drop_length]
    rfl

/-- An all-digit string followed by a dot and two digits satisfies the price shape
and converts. -/
theorem ip_frac_price_ok (ip : Str) (a b : Char) (hne : ip ≠ [])
    (hdig : ∀ c ∈ ip, c.isDigit = true) (ha : a.isDigit = true) (hb : b.isDigit = true) :
    pricePatternShape (ip ++ ['.', a, b]) = true ∧
      (floatOfStr (ip ++ ['.', a, b])).isSome = true := by
  have htake : (ip ++ ['.', a, b]).takeWhile (·.isDigit) = ip :=
    takeWhile_append_stop _ ip '.' [a, b] hdig (by decide)
  have hdrop : (ip ++ ['.', a, b]).drop ip.length = ['.', a, b] := List.drop_left ip _
  have hemp : (ip ++ ['.', a, b]).isEmpty = false := by
    cases ip with
    | nil => exact absurd rfl hne
    | cons c t => rfl
  constructor
  · simp only [pricePatternShape, htake, hemp, hdrop]
    simp [ha, hb]
    exact hne
  · simp only [floatOfStr, htake, hemp, hdrop]
    simp [ha, hb]
    exact hne

/-- Heads of option-valued lists are members. -/
theorem mem_of_head?_eq {α : Type} (l : List α) (a : α) (h : l.head? = some a) :
    a ∈ l := by
  cases l with
  | nil => simp at h
  | cons x xs =>
    simp only [List.head?_cons, Option.some.injEq] at h
    rw [← h]
    exact List.mem_cons_self x xs

/-- Every price candidate is a well-formed price that converts. -/
theorem priceCandidates_ok (s : Str) :
    ∀ cand ∈ priceCandidates s,
      pricePatternShape cand.1 = true ∧ (floatOfStr cand.1).isSome = true := by
  intro cand hc
  simp only [priceCandidates] at hc
  split at hc
  · simp at hc
  · rename_i hemp
    have hne : s.takeWhile (·.isDigit) ≠ [] := by
      intro hnil
      rw [hnil] at hemp
      exact hemp rfl
    have hdig : ∀ c ∈ s.takeWhile (·.isDigit), c.isDigit = true := fun c hcc =>
      List.mem_takeWhile_imp hcc
    split at hc
    · split at hc
      · rename_i a b rest hdr hab
        rcases List.mem_cons.mp hc with h1 | h1
        · rw [h1]
          exact ip_frac_price_ok _ a b hne hdig
            (Bool.and_elim_left hab) (Bool.and_elim_right hab)
        · simp at h1
          rw [h1]
          exact ip_price_ok _ hne hdig
      · simp at hc
        rw [hc]
        exact ip_price_ok _ hne hdig
    · simp at hc
      rw [hc]
      exact ip_price_ok _ hne hdig

/-- Branch A only emits prices from the candidate list. -/
theorem tryBranchA_price (s : Str) (m : MatchRes) (h : tryBranchA s = some m) :
    pricePatternShape m.price = true ∧ (floatOfStr m.price).isSome = true := by
  simp only [tryBranchA] at h
  split at h
  · split at h
    · exact absurd h (by simp)
    · split at h
      · rename_i afterDollar hdr
        split at h
        · rename_i price remaining hcap
          have hmem := mem_of_head?_eq _ _ hcap
          have := priceCandidates_ok afterDollar (price, remaining) hmem
          cases h
          exact this
        · exact absurd h (by simp)
      · exact absurd h (by simp)
  · exact absurd h (by simp)

/-- Branch B only emits prices from the candidate list. -/
theorem tryBranchB_price (s : Str) (m : MatchRes) (h : tryBranchB s = some m) :
    pricePatternShape m.price = true ∧ (floatOfStr m.price).isSome = true := by
  unfold tryBranchB at h
  split at h
  · rename_i afterDollar
    split at h
    · rename_i m0 rest hfm
      have hm0 : m0 ∈ (priceCandidates afterDollar).filterMap (branchBWith afterDollar) := by
        rw [hfm]
        exact List.mem_cons_self m0 rest
      rcases List.mem_filterMap.mp hm0 with ⟨cand, hcand, hbw⟩
      unfold branchBWith at hbw
      split at hbw
      · rename_i tl sz htl
        have hp : m0.price = cand.1 := by cases hbw; rfl
        cases h
        rw [hp]
        exact priceCandidates_ok afterDollar cand hcand
      · exact absurd hbw (by simp)
    · exact absurd h (by simp)
  · exact absurd h (by simp)

/-- Every match of PRODUCT_PATTERN carries a well-formed price that converts. -/
theorem tryMatch_price (s : Str) (m : MatchRes) (h : tryMatch s = some m) :
    pricePatternShape m.price = true ∧ (floatOfStr m.price).isSome = true := by
  unfold tryMatch at h
  rcases hA : tryBranchA s with _ | mA <;> simp only [hA] at h
  · exact tryBranchB_price s m h
  · cases h
    exact tryBranchA_price s m hA

/-- Every match emitted by the scanner comes from the matcher. -/
theorem scanWith_matches (f : Str → Option MatchRes) :
    ∀ fuel s pos sm, sm ∈ scanWith f fuel s pos → ∃ s2, f s2 = some sm.2 := by
  intro fuel
  induction fuel with
  | zero =>
    intro s pos sm h
    simp [scanWith] at h
  | succ n ih =>
    intro s pos sm h
    simp only [scanWith] at h
    split at h
    · rename_i m hf
      rcases List.mem_cons.mp h with h1 | h1
      · exact ⟨s, by rw [hf, h1]⟩
      · exact ih _ _ sm h1
    · rename_i hf
      split at h
      · simp at h
      · rename_i c tail
        exact ih _ _ sm h

/-- When every match price converts, the match loop never emits the invalid-price
warning. -/
theorem parseGo_no_invalid (text : Str) (page : Nat) (col : Column) (category : Str) :
    ∀ ms prevEnd order, (∀ sm ∈ ms, (floatOfStr sm.2.price).isSome = true) →
      ∀ w ∈ (parseGo text page col category ms prevEnd order).2,
        w.isInvalidPrice = false := by
  intro ms
  induction ms with
  | nil =>
    intro prevEnd order hok w hw
    simp [parseGo] at hw
  | cons sm rest ih =>
    rcases sm with ⟨start, m⟩
    intro prevEnd order hok w hw
    have hrest : ∀ x ∈ rest, (floatOfStr x.2.price).isSome = true := fun x hx =>
      hok x (List.mem_cons_of_mem _ hx)
    have hm : (floatOfStr m.price).isSome = true :=
      hok (start, m) (List.mem_cons_self _ rest)
    simp only [parseGo] at hw
    split at hw
    · exact ih _ _ hrest w hw
    · rcases hfl : floatOfStr m.price with _ | price
      · rw [hfl] at hm
        simp at hm
      · rw [hfl] at hw
        exact ih _ _ hrest w hw

/-- C10: every price captured by the anchor pattern has the digit shape that the
float conversion accepts, so the invalid-price warning of parse_products_from_text
is unreachable and no chunk is dropped for a malformed price. -/
theorem c10_price_safety (text : Str) :
    (∀ sm ∈ findMatches text, pricePatternShape sm.2.price = true ∧
        (floatOfStr sm.2.price).isSome = true) ∧
    (∀ (page : Nat) (col : Column) (category : Str),
      ∀ w ∈ (parse_products_from_text text page col category).2,
        w.isInvalidPrice = false) := by
  have hm : ∀ sm ∈ findMatches text, pricePatternShape sm.2.price = true ∧
      (floatOfStr sm.2.price).isSome = true := by
    intro sm hsm
    obtain ⟨s2, hs2⟩ := scanWith_matches tryMatch _ _ _ sm hsm
    exact tryMatch_price s2 sm.2 hs2
  refine ⟨hm, ?_⟩
  intro page col category w hw
  unfold parse_products_from_text at hw
  split at hw
  · simp at hw
  · split at hw
    · simp at hw
      rw [hw]
      rfl
    · exact parseGo_no_invalid text page col category (findMatches text) 0 0
        (fun sm h => (hm sm h).2) w hw

/-- C10 witness: a concrete match whose price converts, and a concrete no-match
column whose only warning is the no-blocks warning, not the invalid-price one. -/
theorem c10_price_safety_witness :
    pricePatternShape (S "5.00") = true ∧
    Warning.isInvalidPrice (Warning.noBlocks 1 Column.left) = false := by
  constructor
  · exact ((c10_price_safety (S "Tallas: S $5.00")).1
      (0, ⟨15, S "S", S "5.00"⟩) (by decide)).1
  · exact (c10_price_safety (S "x")).2 1 Column.left (S "X")
      (Warning.noBlocks 1 Column.left) (by decide)

/-- The match loop numbers the blocks it emits consecutively from the incoming
counter plus one. -/
theorem parseGo_orders (text : Str) (page : Nat) (col : Column) (category : Str) :
    ∀ ms prevEnd order,
      ((parseGo text page col category ms prevEnd order).1.map (·.order_in_column)) =
        List.range' (order + 1)
          (parseGo text page col category ms prevEnd order).1.length := by
  intro ms
  induction ms with
  | nil =>
    intro prevEnd order
    simp [parseGo]
  | cons sm rest ih =>
    rcases sm with ⟨start, m⟩
    intro prevEnd order
    simp only [parseGo]
    split
    · exact ih _ _
    · split
      · exact ih _ _
      · simp only [List.map_cons, List.length_cons, ih (start + m.len) (order + 1)]
        rfl

/-- numberByColumn assigns consecutive orders per column, continuing the incoming
counters. -/
theorem numberByColumn_orders :
    ∀ (l : List ImageSlot) (nl nr : Nat),
      (((numberByColumn nl nr l).filter fun s => s.column == Column.left).map
          (·.order_in_column)) =
        List.range' (nl + 1)
          (((numberByColumn nl nr l).filter fun s => s.column == Column.left).length) ∧
      (((numberByColumn nl nr l).filter fun s => s.column == Column.right).map
          (·.order_in_column)) =
        List.range' (nr + 1)
          (((numberByColumn nl nr l).filter fun s => s.column == Column.right).length) := by
  intro l
  induction l with
  | nil =>
    intro nl nr
    simp [numberByColumn]
  | cons s rest ih =>
    intro nl nr
    cases hcol : s.column with
    | left =>
      rw [show numberByColumn nl nr (s :: rest) =
          { s with order_in_column := nl + 1 } :: numberByColumn (nl + 1) nr rest from by
        simp [numberByColumn, hcol]]
      constructor
      · rw [List.filter_cons_of_pos (by simp [hcol]), List.map_cons, List.length_cons,
          (ih (nl + 1) nr).1]
        rfl
      · rw [List.filter_cons_of_neg (by simp [hcol])]
        exact (ih (nl + 1) nr).2
    | right =>
      rw [show numberByColumn nl nr (s :: rest) =
          { s with order_in_column := nr + 1 } :: numberByColumn nl (nr + 1) rest from by
        simp [numberByColumn, hcol]]
      constructor
      · rw [List.filter_cons_of_neg (by simp [hcol])]
        exact (ih nl (nr + 1)).1
      · rw [List.filter_cons_of_pos (by simp [hcol]), List.map_cons, List.length_cons,
          (ih nl (nr + 1)).2]
        rfl

/-- C6: within every (page, column) pair, the order_in_column values of the parsed
product blocks and of the extracted image slots are exactly the contiguous run
1..N in discovery order. -/
theorem c6_order_contiguity :
    (∀ (text : Str) (page : Nat) (col : Column) (category : Str),
      ((parse_products_from_text text page col category).1.map (·.order_in_column)) =
        List.range' 1 (parse_products_from_text text page col category).1.length) ∧
    (∀ (page : Nat) (width : Int) (images : List PdfImage) (col : Column),
      (((extract_images_from_page page width images).filter
          fun s => s.column == col).map (·.order_in_column)) =
        List.range' 1 (((extract_images_from_page page width images).filter
          fun s => s.column == col).length)) := by
  constructor
  · intro text page col category
    unfold parse_products_from_text
    split
    · simp
    · split
      · simp
      · exact parseGo_orders text page col category _ 0 0
  · intro page width images col
    unfold extract_images_from_page
    cases col with
    | left => exact (numberByColumn_orders _ 0 0).1
    | right => exact (numberByColumn_orders _ 0 0).2

/-- Image filenames are never empty. -/
theorem mkImageFilename_ne_nil (p i : Nat) : mkImageFilename p i ≠ [] := by
  unfold mkImageFilename
  rw [show S "IMG-P" = 'I' :: S "MG-P" from rfl]
  simp

/-- Every slot built by the extraction loop has a non-empty filename. -/
theorem slotsBase_filename_ne (page : Nat) (width : Int) :
    ∀ imgs idx, ∀ s ∈ slotsBase page width idx imgs, s.filename ≠ [] := by
  intro imgs
  induction imgs with
  | nil =>
    intro idx s hs
    simp [slotsBase] at hs
  | cons img rest ih =>
    intro idx s hs
    simp only [slotsBase] at hs
    split at hs
    · rcases List.mem_cons.mp hs with h1 | h1
      · rw [h1]
        exact mkImageFilename_ne_nil page idx
      · exact ih _ s h1
    · exact ih _ s hs

/-- numberByColumn only renumbers; filenames are untouched. -/
theorem numberByColumn_filename_ne :
    ∀ (l : List ImageSlot) (nl nr : Nat), (∀ s ∈ l, s.filename ≠ []) →
      ∀ s ∈ numberByColumn nl nr l, s.filename ≠ [] := by
  intro l
  induction l with
  | nil =>
    intro nl nr h s hs
    simp [numberByColumn] at hs
  | cons x rest ih =>
    intro nl nr h s hs
    have hx := h x (List.mem_cons_self x rest)
    have hrest : ∀ t ∈ rest, t.filename ≠ [] := fun t ht =>
      h t (List.mem_cons_of_mem x ht)
    cases hcol : x.column with
    | left =>
      rw [show numberByColumn nl nr (x :: rest) =
          { x with order_in_column := nl + 1 } :: numberByColumn (nl + 1) nr rest from by
        simp [numberByColumn, hcol]] at hs
      rcases List.mem_cons.mp hs with h1 | h1
      · rw [h1]
        exact hx
      · exact ih (nl + 1) nr hrest s h1
    | right =>
      rw [show numberByColumn nl nr (x :: rest) =
          { x with order_in_column := nr + 1 } :: numberByColumn nl (nr + 1) rest from by
        simp [numberByColumn, hcol]] at hs
      rcases List.mem_cons.mp hs with h1 | h1
      · rw [h1]
        exact hx
      · exact ih nl (nr + 1) hrest s h1

/-- Every extracted image slot has a non-empty filename. -/
theorem extract_filename_ne (page : Nat) (width : Int) (images : List PdfImage) :
    ∀ s ∈ extract_images_from_page page width images, s.filename ≠ [] := by
  unfold extract_images_from_page
  exact numberByColumn_filename_ne _ 0 0
    (fun s hs => slotsBase_filename_ne page width _ 1 s hs)

/-- A slot list whose per-column order lists are duplicate-free has duplicate-free
(column, order) keys. -/
theorem keys_nodup_of_columns :
    ∀ l : List ImageSlot,
      ((l.filter fun s => s.column == Column.left).map (·.order_in_column)).Nodup →
      ((l.filter fun s => s.column == Column.right).map (·.order_in_column)).Nodup →
      (l.map fun s => (s.column, s.order_in_column)).Nodup := by
  intro l
  induction l with
  | nil =>
    intro hl hr
    simp
  | cons x xs ih =>
    intro hl hr
    rw [List.map_cons, List.nodup_cons]
    cases hcol : x.column with
    | left =>
      rw [List.filter_cons_of_pos (by simp [hcol]), List.map_cons, List.nodup_cons] at hl
      rw [List.filter_cons_of_neg (by simp [hcol])] at hr
      constructor
      · intro hmem
        rcases List.mem_map.mp hmem with ⟨y, hy, hkey⟩
        have hyc : y.column = Column.left := by
          have := congrArg Prod.fst hkey
          simpa using this
        have hyo : y.order_in_column = x.order_in_column := by
          have := congrArg Prod.snd hkey
          simpa using this
        exact hl.1 (List.mem_map.mpr ⟨y,
          List.mem_filter.mpr ⟨hy, by simp [hyc]⟩, hyo⟩)
      · exact ih hl.2 hr
    | right =>
      rw [List.filter_cons_of_pos (by simp [hcol]), List.map_cons, List.nodup_cons] at hr
      rw [List.filter_cons_of_neg (by simp [hcol])] at hl
      constructor
      · intro hmem
        rcases List.mem_map.mp hmem with ⟨y, hy, hkey⟩
        have hyc : y.column = Column.right := by
          have := congrArg Prod.fst hkey
          simpa using this
        have hyo : y.order_in_column = x.order_in_column := by
          have := congrArg Prod.snd hkey
          simpa using this
        exact hr.1 (List.mem_map.mpr ⟨y,
          List.mem_filter.mpr ⟨hy, by simp [hyc]⟩, hyo⟩)
      · exact ih hl hr.2

/-- The keys of the extracted slots of a page are duplicate-free. -/
theorem extract_keys_nodup (page : Nat) (width : Int) (images : List PdfImage) :
    ((extract_images_from_page page width images).map
      fun s => (s.column, s.order_in_column)).Nodup := by
  unfold extract_images_from_page
  apply keys_nodup_of_columns
  · rw [(numberByColumn_orders _ 0 0).1]
    exact List.nodup_range' _ _ _ (by decide)
  · rw [(numberByColumn_orders _ 0 0).2]
    exact List.nodup_range' _ _ _ (by decide)

/-- With duplicate-free keys, the dict lookup returns exactly the filename of the
slot holding the key. -/
theorem imageForKey_eq_of_mem (slots : List ImageSlot)
    (hnd : (slots.map fun s => (s.column, s.order_in_column)).Nodup)
    (s : ImageSlot) (hs : s ∈ slots) :
    imageForKey slots s.column s.order_in_column = s.filename := by
  unfold imageForKey
  rcases hf : slots.reverse.find?
      (fun t => t.column == s.column && t.order_in_column == s.order_in_column)
      with _ | t
  · have := List.find?_eq_none.mp hf s (List.mem_reverse.mpr hs)
    simp at this
  · have hpt := List.find?_some hf
    have hmt : t ∈ slots := List.mem_reverse.mp (List.mem_of_find?_eq_some hf)
    simp only [Bool.and_eq_true, beq_iff_eq] at hpt
    have hkey : (fun u : ImageSlot => (u.column, u.order_in_column)) t =
        (fun u : ImageSlot => (u.column, u.order_in_column)) s := by
      simp [hpt.1, hpt.2]
    have hts := List.inj_on_of_nodup_map hnd hmt hs hkey
    rw [hf]
    show t.filename = s.filename
    rw [hts]

/-- A key held by no slot looks up to the empty filename. -/
theorem imageForKey_eq_nil (slots : List ImageSlot) (c : Column) (k : Nat)
    (h : ∀ s ∈ slots, ¬(s.column = c ∧ s.order_in_column = k)) :
    imageForKey slots c k = [] := by
  unfold imageForKey
  rw [List.find?_eq_none.mpr ?_]
  intro s hs
  simp only [Bool.and_eq_true, beq_iff_eq]
  intro hck
  exact h s (List.mem_reverse.mp hs) hck

/-- Closed form of the missing-image pass: the result demotes exactly the products
with an empty filename and records one warning per such product, in order. -/
theorem markMissingImages_eq (page : Nat) :
    ∀ l : List ProductBlock,
      markMissingImages page l =
        (l.map fun p => if p.image_filename.isEmpty then
            { p with confidence := S "low" } else p,
          (l.filter fun p => p.image_filename.isEmpty).map
            fun p => Warning.missingImage page p.name) := by
  intro l
  induction l with
  | nil => rfl
  | cons p rest ih =>
    by_cases hp : p.image_filename.isEmpty
    · have hp2 : p.image_filename = [] := by simpa [List.isEmpty_iff] using hp
      simp [markMissingImages, ih, hp, hp2]
    · have hp2 : ¬p.image_filename = [] := by simpa [List.isEmpty_iff] using hp
      simp [markMissingImages, ih, hp, hp2]

/-- getD of a mapped list below its length. -/
theorem getD_map_of_lt {α β : Type} (f : α → β) :
    ∀ (l : List α) (i : Nat) (d1 : α) (d2 : β), i < l.length →
      (l.map f).getD i d2 = f (l.getD i d1) := by
  intro l
  induction l with
  | nil =>
    intro i d1 d2 h
    simp at h
  | cons x xs ih =>
    intro i d1 d2 h
    cases i with
    | zero => rfl
    | succ n =>
      simp only [List.map_cons, List.getD_cons_succ]
      exact ih n d1 d2 (by simpa using h)

/-- C5: the image-to-product assignment of a page is a pure index join.  A product
whose (column, order) key is held by an extracted slot receives exactly that slot's
filename and keeps its confidence; a product with no matching slot keeps the empty
filename and is forced to low confidence; and the pass appends exactly one warning
per product left without an image. -/
theorem c5_image_assignment (products : List ProductBlock) (page : Nat) (width : Int)
    (images : List PdfImage) :
    (runPageImagePhase page width images products).1.length = products.length ∧
    (∀ i, i < products.length →
      (∀ s ∈ extract_images_from_page page width images,
        s.column = (products.getD i defBlock).column →
        s.order_in_column = (products.getD i defBlock).order_in_column →
        ((runPageImagePhase page width images products).1.getD i defBlock).image_filename
            = s.filename ∧
        ((runPageImagePhase page width images products).1.getD i defBlock).confidence
            = (products.getD i defBlock).confidence) ∧
      ((∀ s ∈ extract_images_from_page page width images,
          ¬(s.column = (products.getD i defBlock).column ∧
            s.order_in_column = (products.getD i defBlock).order_in_column)) →
        ((runPageImagePhase page width images products).1.getD i defBlock).image_filename
            = [] ∧
        ((runPageImagePhase page width images products).1.getD i defBlock).confidence
            = S "low")) ∧
    (runPageImagePhase page width images products).2 =
      ((assign_images_to_products products
          (extract_images_from_page page width images)).filter
        fun p => p.image_filename.isEmpty).map
        fun p => Warning.missingImage page p.name := by
  have hkeys := extract_keys_nodup page width images
  have hfn := extract_filename_ne page width images
  have hphase : runPageImagePhase page width images products =
      markMissingImages page (assign_images_to_products products
        (extract_images_from_page page width images)) := rfl
  rw [hphase, markMissingImages_eq page]
  refine ⟨by simp [assign_images_to_products], ?_, rfl⟩
  intro i hi
  have hia : i < (assign_images_to_products products
      (extract_images_from_page page width images)).length := by
    simpa [assign_images_to_products] using hi
  have hassign : (assign_images_to_products products
      (extract_images_from_page page width images)).getD i defBlock =
      { products.getD i defBlock with
        image_filename := imageForKey (extract_images_from_page page width images)
          (products.getD i defBlock).column
          (products.getD i defBlock).order_in_column } := by
    unfold assign_images_to_products
    exact getD_map_of_lt _ products i defBlock defBlock hi
  have hmarked : ((assign_images_to_products products
        (extract_images_from_page page width images)).map
      fun p => if p.image_filename.isEmpty then
        { p with confidence := S "low" } else p).getD i defBlock =
      (fun p => if p.image_filename.isEmpty then { p with confidence := S "low" } else p)
        ((assign_images_to_products products
          (extract_images_from_page page width images)).getD i defBlock) :=
    getD_map_of_lt _ _ i defBlock defBlock hia
  constructor
  · intro s hs hc ho
    have hkeyeq : imageForKey (extract_images_from_page page width images)
        (products.getD i defBlock).column
        (products.getD i defBlock).order_in_column = s.filename := by
      rw [← hc, ← ho]
      exact imageForKey_eq_of_mem _ hkeys s hs
    have hne : s.filename ≠ [] := hfn s hs
    rcases hsf : s.filename with _ | ⟨a, b⟩
    · exact absurd hsf hne
    · simp only [hmarked, hassign]
      rw [hkeyeq, hsf]
      simp
  · intro hnone
    have hkeynil : imageForKey (extract_images_from_page page width images)
        (products.getD i defBlock).column
        (products.getD i defBlock).order_in_column = [] :=
      imageForKey_eq_nil _ _ _ hnone
    simp only [hmarked, hassign]
    rw [hkeynil]
    simp

/-- C5 witness: on the concrete page, the first product receives the single slot's
filename and the slotless second product ends with an empty filename and low
confidence. -/
theorem c5_image_assignment_witness :
    ((runPageImagePhase 1 100 c5Images c5Products).1.getD 0 defBlock).image_filename =
      mkImageFilename 1 1 ∧
    ((runPageImagePhase 1 100 c5Images c5Products).1.getD 1 defBlock).image_filename = [] ∧
    ((runPageImagePhase 1 100 c5Images c5Products).1.getD 1 defBlock).confidence =
      S "low" := by
  refine ⟨?_, ?_⟩
  · exact (((c5_image_assignment c5Products 1 100 c5Images).2.1 0 (by decide)).1
      { page := 1, column := Column.left, order_in_column := 1,
        filename := mkImageFilename 1 1, top := 10, x0 := 10 }
      (by decide) (by decide) (by decide)).1
  · exact ((c5_image_assignment c5Products 1 100 c5Images).2.1 1 (by decide)).2 (by decide)

/-- Every digit produced by decAux is below ten. -/
theorem decAux_digits_lt : ∀ fuel n, ∀ d ∈ decAux fuel n, d < 10 := by
  intro fuel
  induction fuel with
  | zero =>
    intro n d hd
    simp [decAux] at hd
    omega
  | succ f ih =>
    intro n d hd
    by_cases hn : n < 10
    · simp [decAux, hn] at hd
      omega
    · simp only [decAux, hn, if_false] at hd
      rcases List.mem_cons.mp hd with h1 | h1
      · omega
      · exact ih _ d h1

/-- decAux with enough fuel is a faithful digit expansion. -/
theorem decAux_val : ∀ fuel n, n ≤ fuel → digitsVal (decAux fuel n) = n := by
  intro fuel
  induction fuel with
  | zero =>
    intro n h
    have hn : n = 0 := by omega
    subst hn
    simp [decAux, digitsVal]
  | succ f ih =>
    intro n h
    by_cases hn : n < 10
    · simp [decAux, hn, digitsVal]
    · have hdiv : n / 10 ≤ f := by
        have := Nat.div_lt_self (show 0 < n by omega) (show 1 < 10 by decide)
        omega
      simp only [decAux, hn, if_false, digitsVal, ih (n / 10) hdiv]
      omega

/-- decAux never returns the empty list. -/
theorem decAux_ne_nil : ∀ fuel n, decAux fuel n ≠ [] := by
  intro fuel n
  cases fuel with
  | zero => simp [decAux]
  | succ f =>
    by_cases hn : n < 10 <;> simp [decAux, hn]

/-- The leading (most significant) digit of a positive number is non-zero. -/
theorem decAux_getLast_pos : ∀ fuel n, 1 ≤ n → n ≤ fuel →
    ∀ d, (decAux fuel n).getLast? = some d → 1 ≤ d := by
  intro fuel
  induction fuel with
  | zero =>
    intro n h1 h2
    omega
  | succ f ih =>
    intro n h1 h2 d hd
    by_cases hn : n < 10
    · simp [decAux, hn] at hd
      omega
    · rcases ht : decAux f (n / 10) with _ | ⟨x, xs⟩
      · exact absurd ht (decAux_ne_nil f (n / 10))
      · have hdiv10 : 1 ≤ n / 10 := by omega
        have hdivf : n / 10 ≤ f := by
          have := Nat.div_lt_self (show 0 < n by omega) (show 1 < 10 by decide)
          omega
        simp only [decAux, hn, if_false, ht, List.getLast?_cons_cons] at hd
        exact ih (n / 10) hdiv10 hdivf d (by rw [ht]; exact hd)

/-- digitChar is injective below ten. -/
theorem digitChar_lt_inj (a b : Nat) (ha : a < 10) (hb : b < 10)
    (h : Nat.digitChar a = Nat.digitChar b) : a = b := by
  interval_cases a <;> interval_cases b <;> first | rfl | exact absurd h (by decide)

/-- digitChar of a digit is never the hyphen. -/
theorem digitChar_ne_hyph (d : Nat) (hd : d < 10) : Nat.digitChar d ≠ '-' := by
  interval_cases d <;> decide

/-- digitChar of a positive digit is never the zero character. -/
theorem digitChar_ne_zero (d : Nat) (h1 : 1 ≤ d) (hd : d < 10) :
    Nat.digitChar d ≠ '0' := by
  interval_cases d <;> decide

/-- Mapping digitChar over digit lists is injective. -/
theorem map_digitChar_inj :
    ∀ l1 l2 : List Nat, (∀ d ∈ l1, d < 10) → (∀ d ∈ l2, d < 10) →
      l1.map Nat.digitChar = l2.map Nat.digitChar → l1 = l2 := by
  intro l1
  induction l1 with
  | nil =>
    intro l2 _ _ h
    cases l2 with
    | nil => rfl
    | cons b u => simp at h
  | cons a t ih =>
    intro l2 h1 h2 h
    cases l2 with
    | nil => simp at h
    | cons b u =>
      simp only [List.map_cons, List.cons.injEq] at h
      have hab : a = b := digitChar_lt_inj a b (h1 a (List.mem_cons_self a t))
        (h2 b (List.mem_cons_self b u)) h.1
      rw [hab, ih u (fun d hd => h1 d (List.mem_cons_of_mem a hd))
        (fun d hd => h2 d (List.mem_cons_of_mem b hd)) h.2]

/-- The decimal rendering is never empty. -/
theorem decDigits_ne_nil (n : Nat) : decDigits n ≠ [] := by
  unfold decDigits
  intro h
  rw [List.map_eq_nil_iff, List.reverse_eq_nil_iff] at h
  exact decAux_ne_nil n n h

/-- The decimal rendering of a positive number starts with a non-zero digit. -/
theorem decDigits_head_ne_zero (n : Nat) (h1 : 1 ≤ n) :
    ∀ c l, decDigits n = c :: l → c ≠ '0' := by
  intro c l hc
  unfold decDigits at hc
  rcases hrev : (decAux n n).reverse with _ | ⟨d, ds⟩
  · rw [List.reverse_eq_nil_iff] at hrev
    exact absurd hrev (decAux_ne_nil n n)
  · rw [hrev, List.map_cons, List.cons.injEq] at hc
    have hdlast : (decAux n n).getLast? = some d := by
      rw [← List.head?_reverse, hrev]
      rfl
    have hd1 : 1 ≤ d := decAux_getLast_pos n n h1 le_rfl d hdlast
    have hd10 : d < 10 := decAux_digits_lt n n d (by
      rw [← List.mem_reverse, hrev]
      exact List.mem_cons_self d ds)
    rw [← hc.1]
    exact digitChar_ne_zero d hd1 hd10

/-- The hyphen never occurs in a zero-padded counter. -/
theorem hyph_notMem_padZeros (w n : Nat) : '-' ∉ padZeros w n := by
  unfold padZeros
  intro hmem
  rcases List.mem_append.mp hmem with h1 | h1
  · have := List.eq_of_mem_replicate h1
    exact absurd this (by decide)
  · unfold decDigits at h1
    rcases List.mem_map.mp h1 with ⟨d, hd, hdc⟩
    have hd10 : d < 10 := decAux_digits_lt n n d (List.mem_reverse.mp hd)
    exact digitChar_ne_hyph d hd10 hdc

/-- Dropping the zero padding recovers the digit rendering. -/
theorem dropZeroPad : ∀ (k : Nat) (c : Char) (l : Str), c ≠ '0' →
    (List.replicate k '0' ++ c :: l).dropWhile (· == '0') = c :: l := by
  intro k
  induction k with
  | zero =>
    intro c l hc
    simp [List.dropWhile_cons, hc]
  | succ m ih =>
    intro c l hc
    rw [List.replicate_succ, List.cons_append, List.dropWhile_cons]
    simp only [beq_self_eq_true, if_true]
    exact ih c l hc

/-- The zero-padded counter rendering is injective on positive counters. -/
theorem padZeros_inj (a b : Nat) (ha : 1 ≤ a) (hb : 1 ≤ b)
    (h : padZeros 4 a = padZeros 4 b) : a = b := by
  rcases hda : decDigits a with _ | ⟨ca, la⟩
  · exact absurd hda (decDigits_ne_nil a)
  · rcases hdb : decDigits b with _ | ⟨cb, lb⟩
    · exact absurd hdb (decDigits_ne_nil b)
    · have hca := decDigits_head_ne_zero a ha ca la hda
      have hcb := decDigits_head_ne_zero b hb cb lb hdb
      unfold padZeros at h
      rw [hda, hdb] at h
      have h2 := congrArg (List.dropWhile (· == '0')) h
      rw [dropZeroPad _ ca la hca, dropZeroPad _ cb lb hcb] at h2
      have hd : decDigits a = decDigits b := by rw [hda, hdb, h2]
      unfold decDigits at hd
      have hrev : (decAux a a).reverse = (decAux b b).reverse :=
        map_digitChar_inj _ _
          (fun d hdm => decAux_digits_lt a a d (List.mem_reverse.mp hdm))
          (fun d hdm => decAux_digits_lt b b d (List.mem_reverse.mp hdm)) hd
      have haux : decAux a a = decAux b b := List.reverse_injective hrev
      have hval := congrArg digitsVal haux
      rw [decAux_val a a le_rfl, decAux_val b b le_rfl] at hval
      exact hval

/-- Category and brand codes are four characters long. -/
theorem code4_length (s : Str) : (code4 s).length = 4 := by
  unfold code4
  split
  · rfl
  · simp [List.length_append, List.length_replicate, List.length_take]

/-- Category and brand codes built from alphanumeric input never contain a
hyphen. -/
theorem code4_no_hyphen (s : Str) (h : ∀ c ∈ s, (c.isUpper || c.isDigit) = true) :
    '-' ∉ code4 s := by
  unfold code4
  split
  · decide
  · intro hmem
    rcases List.mem_append.mp hmem with h1 | h1
    · have := h '-' (List.take_subset 4 s h1)
      exact absurd this (by decide)
    · have := List.eq_of_mem_replicate h1
      exact absurd this (by decide)

/-- The category code has length four and no hyphen. -/
theorem category_code_spec (c : Str) :
    (category_code c).length = 4 ∧ '-' ∉ category_code c :=
  ⟨code4_length _, code4_no_hyphen _ (fun _ hx => (List.mem_filter.mp hx).2)⟩

/-- The brand code has length four and no hyphen. -/
theorem brand_code_spec (b : Str) :
    (brand_code b).length = 4 ∧ '-' ∉ brand_code b :=
  ⟨code4_length _, code4_no_hyphen _ (fun _ hx => (List.mem_filter.mp hx).2)⟩

/-- Splitting at a separator character absent from both prefixes is injective. -/
theorem hyphen_sep_inj :
    ∀ (l1 l2 s1 s2 : Str), '-' ∉ l1 → '-' ∉ l2 →
      l1 ++ '-' :: s1 = l2 ++ '-' :: s2 → l1 = l2 ∧ s1 = s2 := by
  intro l1
  induction l1 with
  | nil =>
    intro l2 s1 s2 h1 h2 h
    cases l2 with
    | nil =>
      simp only [List.nil_append, List.cons.injEq] at h
      exact ⟨rfl, h.2⟩
    | cons c u =>
      simp only [List.nil_append, List.cons_append, List.cons.injEq] at h
      exact absurd (h.1 ▸ List.mem_cons_self c u) h2
  | cons c t ih =>
    intro l2 s1 s2 h1 h2 h
    cases l2 with
    | nil =>
      simp only [List.cons_append, List.nil_append, List.cons.injEq] at h
      exact absurd (h.1 ▸ List.mem_cons_self c t) h1
    | cons d u =>
      simp only [List.cons_append, List.cons.injEq] at h
      have hcd : c = d := h.1
      have := ih u s1 s2 (fun hm => h1 (List.mem_cons_of_mem c hm))
        (fun hm => h2 (List.mem_cons_of_mem d hm)) h.2
      exact ⟨by rw [hcd, this.1], this.2⟩

/-- make_sku determines the category code, brand code, counter and size (for
positive counters). -/
theorem make_sku_inj (c1 b1 : Str) (n1 : Nat) (s1 : Str) (c2 b2 : Str) (n2 : Nat)
    (s2 : Str) (h1 : 1 ≤ n1) (h2 : 1 ≤ n2)
    (h : make_sku c1 b1 n1 s1 = make_sku c2 b2 n2 s2) :
    category_code c1 = category_code c2 ∧ brand_code b1 = brand_code b2 ∧
      n1 = n2 ∧ s1 = s2 := by
  unfold make_sku at h
  rw [show S "-" = ['-'] from rfl] at h
  simp only [List.append_assoc, List.singleton_append] at h
  have h3 := List.append_cancel_left h
  have h4 := List.append_inj h3
    ((category_code_spec c1).1.trans (category_code_spec c2).1.symm)
  obtain ⟨hcc, h5⟩ := h4
  simp only [List.cons_append, List.cons.injEq, true_and] at h5
  have h6 := List.append_inj h5
    ((brand_code_spec b1).1.trans (brand_code_spec b2).1.symm)
  obtain ⟨hbc, h7⟩ := h6
  simp only [List.cons.injEq, true_and] at h7
  have h8 := hyphen_sep_inj (padZeros 4 n1) (padZeros 4 n2) s1 s2
    (hyph_notMem_padZeros 4 n1) (hyph_notMem_padZeros 4 n2) h7
  exact ⟨hcc, hbc, padZeros_inj n1 n2 h1 h2 h8.1, h8.2⟩

/-- Membership structure of the staging rows: every row belongs to a product at a
definite offset, with the counter increasing with the offset. -/
theorem mem_stagingRowsAux (ps : List ProductBlock) :
    ∀ cnt r, r ∈ stagingRowsAux cnt ps →
      ∃ j, j < ps.length ∧ r.counter = cnt + 1 + j ∧
        r.category = (ps.getD j defBlock).category ∧
        r.brand = (ps.getD j defBlock).brand ∧
        r.sku = make_sku r.category r.brand r.counter r.size := by
  induction ps with
  | nil =>
    intro cnt r h
    simp [stagingRowsAux] at h
  | cons p rest ih =>
    intro cnt r h
    simp only [stagingRowsAux] at h
    rcases List.mem_append.mp h with h1 | h1
    · rcases List.mem_map.mp h1 with ⟨size, hsz, hr⟩
      refine ⟨0, by simp, ?_, ?_, ?_, ?_⟩ <;> rw [← hr] <;> simp [rowsFor]
    · obtain ⟨j, hj, hc, hcat, hb, hsku⟩ := ih (cnt + 1) r h1
      refine ⟨j + 1, by simpa using hj, by omega, ?_, ?_, hsku⟩
      · rw [List.getD_cons_succ]
        exact hcat
      · rw [List.getD_cons_succ]
        exact hb

/-- C7: within one run, staging rows with distinct (category, brand, chunk counter,
size) tuples have distinct SKU strings. -/
theorem c7_sku_uniqueness (products : List ProductBlock) (r1 r2 : StagingRow)
    (h1 : r1 ∈ write_staging_csv products) (h2 : r2 ∈ write_staging_csv products)
    (hne : (r1.category, r1.brand, r1.counter, r1.size) ≠
      (r2.category, r2.brand, r2.counter, r2.size)) :
    r1.sku ≠ r2.sku := by
  intro hsku
  obtain ⟨j1, hj1, hc1, hcat1, hb1, hsku1⟩ := mem_stagingRowsAux products 0 r1 h1
  obtain ⟨j2, hj2, hc2, hcat2, hb2, hsku2⟩ := mem_stagingRowsAux products 0 r2 h2
  rw [hsku1, hsku2] at hsku
  obtain ⟨hcc, hbc, hn, hs⟩ := make_sku_inj r1.category r1.brand r1.counter r1.size
    r2.category r2.brand r2.counter r2.size (by omega) (by omega) hsku
  have hj : j1 = j2 := by omega
  apply hne
  rw [show r1.category = r2.category from by rw [hcat1, hcat2, hj],
    show r1.brand = r2.brand from by rw [hb1, hb2, hj], hn, hs]

/-- C7 witness: two concrete rows from distinct chunks get distinct SKUs. -/
theorem c7_sku_uniqueness_witness :
    ((write_staging_csv c5Products).getD 0 defRow).sku ≠
      ((write_staging_csv c5Products).getD 1 defRow).sku :=
  c7_sku_uniqueness c5Products _ _ (by decide) (by decide) (by decide)

/-- C2: the modelled reference resolver tries the last parenthesized group first
(normalized to uppercase alphanumerics), falls back to the last long digit run, and
otherwise leaves the reference empty; the scenario chunk resolves to AB987654. -/
theorem c2_reference_resolution (chunk : Str) :
    (normLastParen chunk ≠ [] → refFromChunk chunk = normLastParen chunk) ∧
    (normLastParen chunk = [] → refFromChunk chunk = lastDigitRun6 chunk) ∧
    (normLastParen chunk = [] → lastDigitRun6 chunk = [] → refFromChunk chunk = []) ∧
    refFromChunk (S "Vestido floral (AB-987654)") = S "AB987654" := by
  refine ⟨?_, ?_, ?_, by decide⟩
  · intro h
    rcases hn : normLastParen chunk with _ | ⟨c, t⟩
    · exact absurd hn h
    · simp [refFromChunk, hn]
  · intro h
    simp [refFromChunk, h]
  · intro h1 h2
    simp [refFromChunk, h1, h2]

/-- C2 witness: the parenthesis strategy applies on the scenario chunk. -/
theorem c2_reference_resolution_witness :
    refFromChunk (S "Vestido floral (AB-987654)") =
      normLastParen (S "Vestido floral (AB-987654)") :=
  (c2_reference_resolution (S "Vestido floral (AB-987654)")).1 (by decide)

/-- Every row of the fallback pass has the forced UNICA size, low confidence and
the generic parse mode. -/
theorem permFallbackGo_fields (text : Str) (page : Nat) (col : Column) (category : Str) :
    ∀ gs order, ∀ r ∈ permFallbackGo text page col category gs order,
      r.sizes = [S "UNICA"] ∧ r.confidence = S "low" ∧
        r.parse_mode = S "generic_no_sizes" := by
  intro gs
  induction gs with
  | nil =>
    intro order r hr
    simp [permFallbackGo] at hr
  | cons g rest ih =>
    rcases g with ⟨start, m⟩
    intro order r hr
    simp only [permFallbackGo] at hr
    split at hr
    · exact ih _ r hr
    · rcases List.mem_cons.mp hr with h1 | h1
      · rw [h1]
        exact ⟨rfl, rfl, rfl⟩
      · exact ih _ r h1

/-- The fallback pass emits exactly one row per non-empty chunk. -/
theorem permFallbackGo_length (text : Str) (page : Nat) (col : Column) (category : Str) :
    ∀ gs order, (permFallbackGo text page col category gs order).length =
      ((genericChunks text gs).filter fun cp => !cp.1.isEmpty).length := by
  intro gs
  induction gs with
  | nil =>
    intro order
    simp [permFallbackGo, genericChunks]
  | cons g rest ih =>
    rcases g with ⟨start, m⟩
    intro order
    simp only [permFallbackGo, genericChunks]
    split
    · rename_i hch
      rw [List.filter_cons_of_neg (by simp [hch])]
      exact ih order
    · rename_i hch
      rw [List.filter_cons_of_pos (by simp [hch])]
      simp [ih (order + 1)]

/-- C1: when the anchored pattern yields zero matches and the bare-price pattern
matches, the modelled permissive segmenter runs the fallback pass; every fallback
row has size UNICA, low confidence and parse mode generic_no_sizes, with exactly
one row per non-empty chunk; the scenario column text yields one such row with
price 19.99. -/
theorem c1_generic_fallback :
    (∀ (text : Str) (page : Nat) (col : Column) (category : Str),
      findMatches text = [] → findGenericMatches text ≠ [] →
        (parse_products_permissive text page col category).1 =
          permFallbackGo text page col category (findGenericMatches text) 0) ∧
    (∀ (text : Str) (page : Nat) (col : Column) (category : Str) gs order,
      ∀ r ∈ permFallbackGo text page col category gs order,
        r.sizes = [S "UNICA"] ∧ r.confidence = S "low" ∧
          r.parse_mode = S "generic_no_sizes") ∧
    (∀ (text : Str) (page : Nat) (col : Column) (category : Str) gs order,
      (permFallbackGo text page col category gs order).length =
        ((genericChunks text gs).filter fun cp => !cp.1.isEmpty).length) ∧
    ((parse_products_permissive (S "$19.99 Camisa basica (REF123456)") 1 Column.left
        (S "Blusas")).1.map fun r => (r.sizes, r.confidence, r.parse_mode, r.price)) =
      [([S "UNICA"], S "low", S "generic_no_sizes", (⟨1999, 2⟩ : Dec))] := by
  refine ⟨?_, permFallbackGo_fields, permFallbackGo_length, by decide⟩
  intro text page col category hpm hgm
  have htext : text ≠ [] := by
    intro he
    subst he
    exact hgm (by decide)
  have hie : text.isEmpty = false := by
    cases text with
    | nil => exact absurd rfl htext
    | cons c t => rfl
  unfold parse_products_permissive
  rw [hie]
  rcases hg : findGenericMatches text with _ | ⟨g, gs⟩
  · exact absurd hg hgm
  · simp only [hpm, hg, Bool.false_eq_true, if_false]

/-- C1 witness: the scenario column text triggers the fallback. -/
theorem c1_generic_fallback_witness :
    (parse_products_permissive (S "$19.99 Camisa basica (REF123456)") 1 Column.left
        (S "Blusas")).1 =
      permFallbackGo (S "$19.99 Camisa basica (REF123456)") 1 Column.left (S "Blusas")
        (findGenericMatches (S "$19.99 Camisa basica (REF123456)")) 0 :=
  c1_generic_fallback.1 (S "$19.99 Camisa basica (REF123456)") 1 Column.left
    (S "Blusas") (by decide) (by decide)

/-- The brand scan falls through to the Generica placeholder when no candidate
matches as a prefix or suffix. -/
theorem brandScan_no_match (cands : List Str) (text : Str)
    (h : ∀ cand ∈ cands,
      ((lowerStr cand ++ [' ']).isPrefixOf (lowerStr text)) = false ∧
      (([' '] ++ lowerStr cand).isSuffixOf (lowerStr text)) = false) :
    brandScan cands text = (S "Generica", text) := by
  induction cands with
  | nil => rfl
  | cons cand rest ih =>
    have h1 := (h cand (List.mem_cons_self cand rest)).1
    have h2 := (h cand (List.mem_cons_self cand rest)).2
    simp only [brandScan, h1, h2, Bool.false_eq_true, if_false]
    exact ih fun c hc => h c (List.mem_cons_of_mem cand hc)

/-- The brand scan never returns an empty name on a non-empty input. -/
theorem brandScan_snd_ne (cands : List Str) (text : Str) (ht : text ≠ []) :
    (brandScan cands text).2 ≠ [] := by
  induction cands with
  | nil => exact ht
  | cons cand rest ih =>
    simp only [brandScan]
    split
    · split
      · exact (by decide : S "Producto sin nombre" ≠ [])
      · rename_i hname
        simpa [List.isEmpty_iff] using hname
    · split
      · split
        · exact (by decide : S "Producto sin nombre" ≠ [])
        · rename_i hname
          simpa [List.isEmpty_iff] using hname
      · exact ih

/-- C3 counterexample: on the chunk "Vestido floral (AB-987654)" the script keeps
the parenthesized reference inside the display name, while the claimed cleaning
steps would strip it. -/
theorem c3_name_counterexample :
    (extract_brand_and_name (S "Vestido floral (AB-987654)")).2 =
      S "Vestido floral (AB-987654)" ∧
    specNameClean (S "Vestido floral (AB-987654)") = S "Vestido floral" ∧
    (extract_brand_and_name (S "Vestido floral (AB-987654)")).2 ≠
      specNameClean (S "Vestido floral (AB-987654)") := by
  refine ⟨by decide, by decide, by decide⟩

/-- The brand scan splits off the first matching candidate: if every earlier
candidate fails both the prefix and the suffix test, a prefix hit keeps the
candidate as brand and the cleaned remainder (or the placeholder) as name, and a
suffix hit, tried only after the prefix test fails, does the same with the front
remainder. -/
theorem brandScan_split :
    ∀ (pre : List Str) (cand : Str) (post : List Str) (text : Str),
      (∀ c ∈ pre,
        ((lowerStr c ++ [' ']).isPrefixOf (lowerStr text)) = false ∧
        (([' '] ++ lowerStr c).isSuffixOf (lowerStr text)) = false) →
      (((lowerStr cand ++ [' ']).isPrefixOf (lowerStr text)) = true →
        brandScan (pre ++ cand :: post) text =
          (cand, if (clean_spaces (text.drop cand.length)).isEmpty then
              S "Producto sin nombre"
            else clean_spaces (text.drop cand.length))) ∧
      (((lowerStr cand ++ [' ']).isPrefixOf (lowerStr text)) = false →
        (([' '] ++ lowerStr cand).isSuffixOf (lowerStr text)) = true →
        brandScan (pre ++ cand :: post) text =
          (cand, if (clean_spaces (text.take (text.length - cand.length))).isEmpty then
              S "Producto sin nombre"
            else clean_spaces (text.take (text.length - cand.length)))) := by
  intro pre
  induction pre with
  | nil =>
    intro cand post text hpre
    constructor
    · intro hp
      simp only [List.nil_append, brandScan, hp, if_true]
    · intro hp hs
      simp only [List.nil_append, brandScan, hp, hs, Bool.false_eq_true, if_false, if_true]
  | cons c pre2 ih =>
    intro cand post text hpre
    have hc1 := (hpre c (List.mem_cons_self c pre2)).1
    have hc2 := (hpre c (List.mem_cons_self c pre2)).2
    have htail : ∀ x ∈ pre2,
        ((lowerStr x ++ [' ']).isPrefixOf (lowerStr text)) = false ∧
        (([' '] ++ lowerStr x).isSuffixOf (lowerStr text)) = false :=
      fun x hx => hpre x (List.mem_cons_of_mem c hx)
    constructor
    · intro hp
      rw [List.cons_append,
        show brandScan (c :: (pre2 ++ cand :: post)) text =
            brandScan (pre2 ++ cand :: post) text from by
          simp only [brandScan, hc1, hc2, Bool.false_eq_true, if_false]]
      exact (ih cand post text htail).1 hp
    · intro hp hs
      rw [List.cons_append,
        show brandScan (c :: (pre2 ++ cand :: post)) text =
            brandScan (pre2 ++ cand :: post) text from by
          simp only [brandScan, hc1, hc2, Bool.false_eq_true, if_false]]
      exact (ih cand post text htail).2 hp hs

/-- C3 amended: the display name is the chunk after whitespace collapsing, one
leading digit/comma/whitespace run removed and edge punctuation stripped; the
first brand candidate matched as a lowercase prefix (followed by a space) or, the
prefix failing, as a lowercase suffix (preceded by a space) is split off, the name
being the cleaned remainder with the placeholder on an empty remainder; with no
matching candidate the name is the whole cleaned chunk; an empty cleaned chunk
becomes the placeholder, and the name is never empty. -/
theorem c3_name_extraction_amended (raw : Str) :
    (nameCore raw = [] →
      extract_brand_and_name raw = (S "Generica", S "Producto sin nombre")) ∧
    (nameCore raw ≠ [] →
      (∀ cand ∈ BRAND_CANDIDATES,
        ((lowerStr cand ++ [' ']).isPrefixOf (lowerStr (nameCore raw))) = false ∧
        (([' '] ++ lowerStr cand).isSuffixOf (lowerStr (nameCore raw))) = false) →
      extract_brand_and_name raw = (S "Generica", nameCore raw)) ∧
    (nameCore raw ≠ [] →
      ∀ pre cand post, BRAND_CANDIDATES = pre ++ cand :: post →
        (∀ c ∈ pre,
          ((lowerStr c ++ [' ']).isPrefixOf (lowerStr (nameCore raw))) = false ∧
          (([' '] ++ lowerStr c).isSuffixOf (lowerStr (nameCore raw))) = false) →
        (((lowerStr cand ++ [' ']).isPrefixOf (lowerStr (nameCore raw))) = true →
          extract_brand_and_name raw =
            (cand, if (clean_spaces ((nameCore raw).drop cand.length)).isEmpty then
                S "Producto sin nombre"
              else clean_spaces ((nameCore raw).drop cand.length))) ∧
        (((lowerStr cand ++ [' ']).isPrefixOf (lowerStr (nameCore raw))) = false →
          (([' '] ++ lowerStr cand).isSuffixOf (lowerStr (nameCore raw))) = true →
          extract_brand_and_name raw =
            (cand, if (clean_spaces ((nameCore raw).take
                ((nameCore raw).length - cand.length))).isEmpty then
                S "Producto sin nombre"
              else clean_spaces ((nameCore raw).take
                ((nameCore raw).length - cand.length))))) ∧
    (extract_brand_and_name raw).2 ≠ [] := by
  refine ⟨?_, ?_, ?_, ?_⟩
  · intro h
    simp [extract_brand_and_name, h]
  · intro h hb
    have hie : (nameCore raw).isEmpty = false := by
      cases hn : nameCore raw with
      | nil => exact absurd hn h
      | cons c t => rfl
    simp only [extract_brand_and_name, hie, Bool.false_eq_true, if_false]
    exact brandScan_no_match BRAND_CANDIDATES (nameCore raw) hb
  · intro h pre cand post hsplit hpre
    have hie : (nameCore raw).isEmpty = false := by
      cases hn : nameCore raw with
      | nil => exact absurd hn h
      | cons c t => rfl
    simp only [extract_brand_and_name, hie, Bool.false_eq_true, if_false, hsplit]
    exact brandScan_split pre cand post (nameCore raw) hpre
  · by_cases h : nameCore raw = []
    · simp only [extract_brand_and_name, h]
      decide
    · have hie : (nameCore raw).isEmpty = false := by
        cases hn : nameCore raw with
        | nil => exact absurd hn h
        | cons c t => rfl
      simp only [extract_brand_and_name, hie, Bool.false_eq_true, if_false]
      exact brandScan_snd_ne BRAND_CANDIDATES (nameCore raw) h

/-- C3 amended witness: a branded chunk has its brand split off the name, and an
unbranded chunk keeps its cleaned text as the name. -/
theorem c3_name_extraction_amended_witness :
    extract_brand_and_name (S "Zara camisa") = (S "Zara", S "camisa") ∧
    extract_brand_and_name (S "Vestido floral (AB-987654)") =
      (S "Generica", nameCore (S "Vestido floral (AB-987654)")) := by
  constructor
  · have h := ((c3_name_extraction_amended (S "Zara camisa")).2.2.1 (by decide)
      [] (S "Zara")
      [S "Mango", S "Pull & Bear", S "Stradivarius", S "Bershka", S "H&M", S "HM",
        S "Sfera", S "Forever 21", S "Lefties", S "Shein", S "Massimo Dutti"]
      (by decide) (by decide)).1 (by decide)
    rw [h]
    decide
  · exact (c3_name_extraction_amended (S "Vestido floral (AB-987654)")).2.1
      (by decide) (by decide)

/-- Every parsed block's confidence is determined by its brand. -/
theorem parseGo_confidence (text : Str) (page : Nat) (col : Column) (category : Str) :
    ∀ ms prevEnd order, ∀ b ∈ (parseGo text page col category ms prevEnd order).1,
      b.confidence = (if b.brand == S "Generica" then S "low" else S "medium") := by
  intro ms
  induction ms with
  | nil =>
    intro prevEnd order b hb
    simp [parseGo] at hb
  | cons sm rest ih =>
    rcases sm with ⟨start, m⟩
    intro prevEnd order b hb
    simp only [parseGo] at hb
    split at hb
    · exact ih _ _ b hb
    · split at hb
      · exact ih _ _ b hb
      · rcases List.mem_cons.mp hb with h1 | h1
        · rw [h1]
        · exact ih _ _ b h1

/-- C4 counterexample: the primary parse gives the chunk "Zara camisa" medium
confidence although no reference code is extractable from the chunk text, and it
gives a referenced but brandless chunk low confidence. -/
theorem c4_confidence_counterexample :
    ((parse_products_from_text (S "Zara camisa Tallas: S $10.00") 1 Column.left
        (S "Blusas")).1.map fun b => (b.confidence, b.source_text)) =
      [(S "medium", S "Zara camisa")] ∧
    refFromChunk (S "Zara camisa") = [] ∧
    ((parse_products_from_text (S "Camisa (REF123456) Tallas: S $10.00") 1 Column.left
        (S "Blusas")).1.map fun b => (b.confidence, b.source_text)) =
      [(S "low", S "Camisa (REF123456)")] ∧
    refFromChunk (S "Camisa (REF123456)") = S "REF123456" := by
  refine ⟨by decide, by decide, by decide, by decide⟩

/-- C4 amended: within the primary parse mode the initial confidence is medium
exactly when a known brand was matched in the chunk (brand other than the Generica
placeholder), and low otherwise. -/
theorem c4_confidence_amended (text : Str) (page : Nat) (col : Column) (category : Str) :
    ∀ b ∈ (parse_products_from_text text page col category).1,
      (b.confidence = S "medium" ↔ b.brand ≠ S "Generica") ∧
      (b.confidence = S "medium" ∨ b.confidence = S "low") := by
  intro b hb
  have hc : b.confidence = (if b.brand == S "Generica" then S "low" else S "medium") := by
    unfold parse_products_from_text at hb
    split at hb
    · simp at hb
    · split at hb
      · simp at hb
      · exact parseGo_confidence text page col category _ 0 0 b hb
  by_cases hbr : b.brand = S "Generica"
  · rw [hc, if_pos (by simp [hbr])]
    exact ⟨iff_of_false (by decide) (by simp [hbr]), Or.inr rfl⟩
  · rw [hc, if_neg (by simp [hbr])]
    exact ⟨iff_of_true rfl hbr, Or.inl rfl⟩

/-- C4 amended witness: the branded scenario chunk is medium exactly because its
brand was recognized. -/
theorem c4_confidence_amended_witness :
    ((parse_products_from_text (S "Zara camisa Tallas: S $10.00") 1 Column.left
        (S "Blusas")).1.headD defBlock).confidence = S "medium" ↔
      ((parse_products_from_text (S "Zara camisa Tallas: S $10.00") 1 Column.left
        (S "Blusas")).1.headD defBlock).brand ≠ S "Generica" :=
  (c4_confidence_amended (S "Zara camisa Tallas: S $10.00") 1 Column.left (S "Blusas")
    _ (by decide)).1

end Theorems

end CatalogExtract
